import Mathlib

/-!
Verification of the LTMS2 belief-maintenance core (cltms.py, cltre.py).

The development shallowly embeds the Python source:

* symbolic terms (Python atoms, `?`-variables, lists and tuples) become the
  inductive `Term`; Python's `list`/`tuple` distinction is kept because
  `subst` preserves it while `unify` ignores it;
* the recursive functions `unify` and `subst`, which can diverge on cyclic
  binding environments, take an explicit fuel argument and return `none`
  exactly when the fuel runs out (Python would recurse forever / overflow);
* the CLTMS belief graph becomes an explicit state record, with nodes and
  justifications addressed by list index; the recursive `propagate` and
  `re_evaluate` are fueled in the same way;
* the LTRE layer (dbclass registry, rules, work queue) becomes a state
  record; rule bodies, which in Python are arbitrary callbacks mutating the
  engine, are modelled as functions from the binding environment and the
  triggering node to a list of engine commands (assert / retract), which is
  the interface the shipped driver script uses.
-/

set_option maxHeartbeats 1000000

/-- Symbolic terms: string atoms (a string starting with `?` is a variable,
exactly as `is_var` in cltre.py decides), Python tuples, and Python lists. -/
inductive Term where
  | atom : String → Term
  | tup : List Term → Term
  | lst : List Term → Term

mutual
/-- Boolean structural equality on terms (Python `==`: a list is never equal
to a tuple, even with equal elements). -/
def termBEq : Term → Term → Bool
  | .atom a, .atom b => a = b
  | .tup as, .tup bs => termListBEq as bs
  | .lst as, .lst bs => termListBEq as bs
  | _, _ => false
termination_by structural a _ => a

/-- Boolean structural equality on term lists. -/
def termListBEq : List Term → List Term → Bool
  | [], [] => true
  | a :: as, b :: bs => termBEq a b && termListBEq as bs
  | _, _ => false
termination_by structural as _ => as
end

mutual
theorem termBEq_refl : ∀ a, termBEq a a = true
  | .atom a => by simp only [termBEq, decide_eq_true_eq]
  | .tup as => by simp only [termBEq]; exact termListBEq_refl as
  | .lst as => by simp only [termBEq]; exact termListBEq_refl as

theorem termListBEq_refl : ∀ as, termListBEq as as = true
  | [] => by simp only [termListBEq]
  | a :: as => by
      simp only [termListBEq, Bool.and_eq_true]
      exact ⟨termBEq_refl a, termListBEq_refl as⟩
end

mutual
theorem termBEq_sound : ∀ a b, termBEq a b = true → a = b
  | .atom a, .atom b => by
      simp only [termBEq, decide_eq_true_eq]
      intro h
      rw [h]
  | .atom _, .tup _ => by simp [termBEq]
  | .atom _, .lst _ => by simp [termBEq]
  | .tup _, .atom _ => by simp [termBEq]
  | .tup as, .tup bs => by
      simp only [termBEq]
      intro h
      rw [termListBEq_sound as bs h]
  | .tup _, .lst _ => by simp [termBEq]
  | .lst _, .atom _ => by simp [termBEq]
  | .lst _, .tup _ => by simp [termBEq]
  | .lst as, .lst bs => by
      simp only [termBEq]
      intro h
      rw [termListBEq_sound as bs h]

theorem termListBEq_sound : ∀ as bs, termListBEq as bs = true → as = bs
  | [], [] => by simp
  | [], _ :: _ => by simp [termListBEq]
  | _ :: _, [] => by simp [termListBEq]
  | a :: as, b :: bs => by
      simp only [termListBEq, Bool.and_eq_true]
      intro h
      rw [termBEq_sound a b h.1, termListBEq_sound as bs h.2]
end

instance : DecidableEq Term := fun a b =>
  if h : termBEq a b = true then isTrue (termBEq_sound a b h)
  else isFalse (fun he => h (he ▸ termBEq_refl a))

/-- A string starts with the character `?` (Python `x.startswith("?")`,
phrased on the character list so that it computes by kernel reduction). -/
def isVarStr (s : String) : Bool :=
  match s.data with
  | [] => false
  | c :: _ => c = Char.ofNat 63

/-- is_var from cltre.py: a term is a variable iff it is a string starting
with the character `?`. -/
def Term.isVar : Term → Bool
  | .atom s => isVarStr s
  | _ => false

/-- Name of a variable term (the underlying string), used as key into the
binding environment, exactly as Python indexes the dict with the string. -/
def Term.varName : Term → String
  | .atom s => s
  | _ => ""

/-- Binding environments: Python dicts from variable strings to terms.
Keys are inserted only when absent, so an association list with first-match
lookup is a faithful model. -/
abbrev Env := List (String × Term)

/-- Lookup in a binding environment (first match wins, like a dict where
every key occurs at most once). -/
def envLookup : Env → String → Option Term
  | [], _ => none
  | (k, v) :: rest, s => if k = s then some v else envLookup rest s

mutual
/-- A term is ground when it contains no variable anywhere. -/
def Term.isGround : Term → Bool
  | .atom s => !(isVarStr s)
  | .tup es => Term.isGroundList es
  | .lst es => Term.isGroundList es
termination_by structural t => t

/-- All terms of a list are ground. -/
def Term.isGroundList : List Term → Bool
  | [] => true
  | e :: es => Term.isGround e && Term.isGroundList es
termination_by structural es => es
end

mutual
/-- A term contains no Python list (only atoms, variables and tuples). -/
def Term.noLst : Term → Bool
  | .atom _ => true
  | .tup es => Term.noLstList es
  | .lst _ => false
termination_by structural t => t

/-- No term of the list contains a Python list. -/
def Term.noLstList : List Term → Bool
  | [] => true
  | e :: es => Term.noLst e && Term.noLstList es
termination_by structural es => es
end

mutual
/-- Canonical form identifying the two sequence kinds: every Python list is
replaced by the tuple with the same elements. -/
def Term.canon : Term → Term
  | .atom s => .atom s
  | .tup es => .tup (Term.canonList es)
  | .lst es => .tup (Term.canonList es)
termination_by structural t => t

/-- Element-wise canonical form. -/
def Term.canonList : List Term → List Term
  | [] => []
  | e :: es => Term.canon e :: Term.canonList es
termination_by structural es => es
end

/-- Elements of a sequence term (empty for atoms). -/
def Term.args : Term → List Term
  | .atom _ => []
  | .tup es => es
  | .lst es => es

/-- A term is a sequence (Python `isinstance(x, (list, tuple))`). -/
def Term.isSeq : Term → Bool
  | .atom _ => false
  | .tup _ => true
  | .lst _ => true

mutual
/-- unify from cltre.py.  `none` means the fuel ran out (the Python function
would still be recursing); `some none` is Python's `None` failure result;
`some (some e)` is success with environment `e`.  The clauses mirror the
source line by line: structural-equality short-circuit; bound variable on
the pattern side resolved and re-unified; unbound pattern variable bound to
the term; the same two cases with the sides swapped; sequences of equal
length unified element-wise threading the environment; anything else fails. -/
def unify : Nat → Term → Term → Env → Option (Option Env)
  | 0, _, _, _ => none
  | fuel + 1, pat, term, env =>
    if pat = term then some (some env)
    else if pat.isVar then
      match envLookup env pat.varName with
      | some v => unify fuel v term env
      | none => some (some (env ++ [(pat.varName, term)]))
    else if term.isVar then
      match envLookup env term.varName with
      | some v => unify fuel pat v env
      | none => some (some (env ++ [(term.varName, pat)]))
    else if pat.isSeq && term.isSeq then
      if pat.args.length = term.args.length then
        unifyList fuel pat.args term.args env
      else some none
    else some none
termination_by structural f _ _ _ => f

/-- Element-wise unification of two sequences of equal length (the
`zip`-loop of cltre.py's unify). -/
def unifyList : Nat → List Term → List Term → Env → Option (Option Env)
  | 0, _, _, _ => none
  | _ + 1, [], _, env => some (some env)
  | _ + 1, _ :: _, [], env => some (some env)
  | fuel + 1, p :: ps, t :: ts, env =>
    match unify fuel p t env with
    | none => none
    | some none => some none
    | some (some e) => unifyList fuel ps ts e
termination_by structural f _ _ _ => f
end

mutual
/-- subst from cltre.py, fueled like unify: a bound variable is replaced by
the (recursively substituted) value, an unbound variable stays, sequences
are rebuilt element-wise preserving the tuple/list kind, atoms stay. -/
def subst : Nat → Term → Env → Option Term
  | 0, _, _ => none
  | fuel + 1, pat, env =>
    if pat.isVar then
      match envLookup env pat.varName with
      | some v => subst fuel v env
      | none => some pat
    else
      match pat with
      | .tup es => (substList fuel es env).map Term.tup
      | .lst es => (substList fuel es env).map Term.lst
      | _ => some pat
termination_by structural f _ _ => f

/-- Element-wise substitution (the list comprehension in cltre.py's subst). -/
def substList : Nat → List Term → Env → Option (List Term)
  | 0, _, _ => none
  | _ + 1, [], _ => some []
  | fuel + 1, e :: es, env =>
    match subst fuel e env with
    | none => none
    | some u =>
      match substList fuel es env with
      | none => none
      | some us => some (u :: us)
termination_by structural f _ _ => f
end

example : unify 5 (Term.tup [Term.atom "requires", Term.atom "?c", Term.atom "CS101"])
    (Term.tup [Term.atom "requires", Term.atom "CS102", Term.atom "CS101"]) []
    = some (some [("?c", Term.atom "CS102")]) := by decide

example : unify 5 (Term.lst [Term.atom "a"]) (Term.tup [Term.atom "a"]) []
    = some (some []) := by decide

example : subst 5 (Term.lst [Term.atom "a"]) [] = some (Term.lst [Term.atom "a"]) := by decide

/-! ### Environment lemmas -/

theorem envLookup_append_left {env : Env} {k : String} {v : Term} (rest : Env)
    (h : envLookup env k = some v) : envLookup (env ++ rest) k = some v := by
  induction env with
  | nil => simp [envLookup] at h
  | cons kv env ih =>
    obtain ⟨k', v'⟩ := kv
    simp only [envLookup, List.cons_append] at h ⊢
    by_cases hk : k' = k
    · rw [if_pos hk] at h ⊢
      exact h
    · rw [if_neg hk] at h ⊢
      exact ih h

theorem envLookup_append_self {env : Env} {k : String} (t : Term)
    (h : envLookup env k = none) : envLookup (env ++ [(k, t)]) k = some t := by
  induction env with
  | nil => simp [envLookup]
  | cons kv env ih =>
    obtain ⟨k', v'⟩ := kv
    simp only [envLookup, List.cons_append] at h ⊢
    by_cases hk : k' = k
    · rw [if_pos hk] at h
      exact absurd h (by simp)
    · rw [if_neg hk] at h ⊢
      exact ih h

/-- One environment extends another: every binding of the first is a binding
of the second.  unify only ever adds bindings for absent keys, so the
environments it produces extend its input. -/
def envExtends (e₁ e₂ : Env) : Prop :=
  ∀ k v, envLookup e₁ k = some v → envLookup e₂ k = some v

theorem envExtends_refl (e : Env) : envExtends e e := fun _ _ h => h

theorem envExtends_trans {e₁ e₂ e₃ : Env} (h₁ : envExtends e₁ e₂)
    (h₂ : envExtends e₂ e₃) : envExtends e₁ e₃ :=
  fun k v h => h₂ k v (h₁ k v h)

theorem envExtends_append (e : Env) (rest : Env) : envExtends e (e ++ rest) :=
  fun _ _ h => envLookup_append_left rest h

/-- All values bound in an environment satisfy a predicate. -/
def envAll (P : Term → Bool) (env : Env) : Bool :=
  env.all fun kv => P kv.2

theorem envAll_lookup {P : Term → Bool} {env : Env} {k : String} {v : Term}
    (hall : envAll P env = true) (h : envLookup env k = some v) : P v = true := by
  induction env with
  | nil => simp [envLookup] at h
  | cons kv env ih =>
    obtain ⟨k', v'⟩ := kv
    simp only [envAll, List.all_cons, Bool.and_eq_true] at hall
    simp only [envLookup] at h
    split at h
    · cases h
      exact hall.1
    · exact ih hall.2 h

theorem envAll_append_one {P : Term → Bool} {env : Env} {k : String} {v : Term}
    (hall : envAll P env = true) (hv : P v = true) :
    envAll P (env ++ [(k, v)]) = true := by
  simp only [envAll, List.all_append, List.all_cons, List.all_nil, Bool.and_eq_true,
    Bool.and_true] at *
  exact ⟨hall, hv⟩

/-! ### Basic term lemmas -/

theorem ground_not_var {t : Term} (h : t.isGround = true) : t.isVar = false := by
  cases t with
  | atom s =>
    simp only [Term.isGround, Bool.not_eq_true'] at h
    simp [Term.isVar, h]
  | tup es => rfl
  | lst es => rfl

theorem isGroundList_cons {t : Term} {ts : List Term} :
    Term.isGroundList (t :: ts) = true ↔ t.isGround = true ∧ Term.isGroundList ts = true := by
  simp [Term.isGroundList]

theorem noLstList_cons {t : Term} {ts : List Term} :
    Term.noLstList (t :: ts) = true ↔ t.noLst = true ∧ Term.noLstList ts = true := by
  simp [Term.noLstList]

theorem canonList_cons (t : Term) (ts : List Term) :
    Term.canonList (t :: ts) = t.canon :: Term.canonList ts := rfl

mutual
/-- Terms without Python lists are fixed by canonicalization. -/
theorem canon_eq_self_of_noLst : ∀ t : Term, t.noLst = true → t.canon = t
  | .atom _, _ => rfl
  | .tup es, h => by
      simp only [Term.canon, Term.tup.injEq]
      exact canonList_eq_self_of_noLst es (by simpa [Term.noLst] using h)
  | .lst _, h => by simp [Term.noLst] at h
termination_by structural t => t

/-- Term lists without Python lists are fixed by canonicalization. -/
theorem canonList_eq_self_of_noLst : ∀ ts : List Term, Term.noLstList ts = true →
    Term.canonList ts = ts
  | [], _ => rfl
  | t :: ts, h => by
      rw [noLstList_cons] at h
      rw [Term.canonList, canon_eq_self_of_noLst t h.1, canonList_eq_self_of_noLst ts h.2]
termination_by structural ts => ts
end

/-! ### unify extends its input environment -/

mutual
theorem unify_extends : ∀ fuel pat term env e,
    unify fuel pat term env = some (some e) → envExtends env e
  | 0, _, _, _, _ => by
    intro h
    simp [unify] at h
  | fuel + 1, pat, term, env, e => by
    intro h
    simp only [unify] at h
    split_ifs at h with h1 h2 h3 h4 h5
    · cases h
      exact envExtends_refl _
    · split at h
      · exact unify_extends fuel _ term env e h
      · cases h
        exact envExtends_append _ _
    · split at h
      · exact unify_extends fuel pat _ env e h
      · cases h
        exact envExtends_append _ _
    · exact unifyList_extends fuel _ _ env e h
    · cases h
    · cases h
termination_by structural fuel _ _ _ _ => fuel

theorem unifyList_extends : ∀ fuel ps ts env e,
    unifyList fuel ps ts env = some (some e) → envExtends env e
  | 0, _, _, _, _ => by
    intro h
    simp [unifyList] at h
  | fuel + 1, [], _, env, e => by
    intro h
    simp only [unifyList] at h
    cases h
    exact envExtends_refl _
  | fuel + 1, _ :: _, [], env, e => by
    intro h
    simp only [unifyList] at h
    cases h
    exact envExtends_refl _
  | fuel + 1, p :: ps, t :: ts, env, e => by
    intro h
    simp only [unifyList] at h
    split at h
    · cases h
    · cases h
    · exact envExtends_trans (unify_extends fuel p t env _ (by assumption))
        (unifyList_extends fuel ps ts _ e h)
termination_by structural fuel _ _ _ _ => fuel
end

/-! ### unify preserves value predicates when the term side satisfies them -/

mutual
theorem unify_envAll {P : Term → Bool}
    (hvar : ∀ u, P u = true → u.isVar = false)
    (hargs : ∀ u, P u = true → ∀ x ∈ u.args, P x = true) :
    ∀ fuel pat term env e, P term = true → envAll P env = true →
    unify fuel pat term env = some (some e) → envAll P e = true
  | 0, _, _, _, _ => by
    intro _ _ h
    simp [unify] at h
  | fuel + 1, pat, term, env, e => by
    intro hP henv h
    simp only [unify] at h
    split_ifs at h with h1 h2 h3 h4 h5
    · cases h
      exact henv
    · split at h
      · exact unify_envAll hvar hargs fuel _ term env e hP henv h
      · cases h
        exact envAll_append_one henv hP
    · exact absurd h3 (by simp [hvar term hP])
    · have hts : ∀ x ∈ term.args, P x = true := hargs term hP
      exact unifyList_envAll hvar hargs fuel _ _ env e hts henv h
    · cases h
    · cases h
termination_by structural fuel _ _ _ _ => fuel

theorem unifyList_envAll {P : Term → Bool}
    (hvar : ∀ u, P u = true → u.isVar = false)
    (hargs : ∀ u, P u = true → ∀ x ∈ u.args, P x = true) :
    ∀ fuel ps ts env e, (∀ x ∈ ts, P x = true) → envAll P env = true →
    unifyList fuel ps ts env = some (some e) → envAll P e = true
  | 0, _, _, _, _ => by
    intro _ _ h
    simp [unifyList] at h
  | fuel + 1, [], _, env, e => by
    intro _ henv h
    simp only [unifyList] at h
    cases h
    exact henv
  | fuel + 1, _ :: _, [], env, e => by
    intro _ henv h
    simp only [unifyList] at h
    cases h
    exact henv
  | fuel + 1, p :: ps, t :: ts, env, e => by
    intro hts henv h
    simp only [unifyList] at h
    split at h
    · cases h
    · cases h
    · have h₁ := unify_envAll hvar hargs fuel p t env _ (hts t (by simp)) henv (by assumption)
      exact unifyList_envAll hvar hargs fuel ps ts _ e
        (fun x hx => hts x (by simp [hx])) h₁ h
termination_by structural fuel _ _ _ _ => fuel
end

/-! ### unify on two ground terms: success means equal canonical forms and
an unchanged environment -/

theorem ground_args {t : Term} (h : t.isGround = true) :
    Term.isGroundList t.args = true := by
  cases t with
  | atom s => rfl
  | tup es => exact h
  | lst es => exact h

theorem canon_of_seq {t : Term} (h : t.isSeq = true) :
    t.canon = .tup (Term.canonList t.args) := by
  cases t with
  | atom s => simp [Term.isSeq] at h
  | tup es => rfl
  | lst es => rfl

mutual
theorem unify_ground_ground : ∀ fuel pat term env e, pat.isGround = true →
    term.isGround = true → unify fuel pat term env = some (some e) →
    pat.canon = term.canon ∧ e = env
  | 0, _, _, _, _ => by
    intro _ _ h
    simp [unify] at h
  | fuel + 1, pat, term, env, e => by
    intro hp ht h
    simp only [unify] at h
    split_ifs at h with h1 h2 h3 h4 h5
    · cases h
      exact ⟨by rw [h1], rfl⟩
    · exact absurd h2 (by simp [ground_not_var hp])
    · exact absurd h3 (by simp [ground_not_var ht])
    · have hps := ground_args hp
      have hts := ground_args ht
      have hseq := h4
      rw [Bool.and_eq_true] at hseq
      have := unifyList_ground_ground fuel _ _ env e hps hts h5 h
      refine ⟨?_, this.2⟩
      rw [canon_of_seq hseq.1, canon_of_seq hseq.2, this.1]
    · cases h
    · cases h
termination_by structural fuel _ _ _ _ => fuel

theorem unifyList_ground_ground : ∀ fuel ps ts env e, Term.isGroundList ps = true →
    Term.isGroundList ts = true → ps.length = ts.length →
    unifyList fuel ps ts env = some (some e) →
    Term.canonList ps = Term.canonList ts ∧ e = env
  | 0, _, _, _, _ => by
    intro _ _ _ h
    simp [unifyList] at h
  | fuel + 1, [], ts, env, e => by
    intro _ _ hlen h
    cases ts with
    | nil =>
      simp only [unifyList] at h
      cases h
      exact ⟨rfl, rfl⟩
    | cons t ts => simp at hlen
  | fuel + 1, _ :: _, [], env, e => by
    intro _ _ hlen h
    simp at hlen
  | fuel + 1, p :: ps, t :: ts, env, e => by
    intro hp ht hlen h
    rw [isGroundList_cons] at hp ht
    simp only [unifyList] at h
    split at h
    · cases h
    · cases h
    · have h₁ := unify_ground_ground fuel p t env _ hp.1 ht.1 (by assumption)
      cases h₁.2
      have h₂ := unifyList_ground_ground fuel ps ts env e hp.2 ht.2 (by simpa using hlen) h
      exact ⟨by rw [canonList_cons, canonList_cons, h₁.1, h₂.1], h₂.2⟩
termination_by structural fuel _ _ _ _ => fuel
end

/-! ### subst: fuel monotonicity and identity on ground terms -/

mutual
theorem subst_mono : ∀ fuel pat env u, subst fuel pat env = some u →
    subst (fuel + 1) pat env = some u
  | 0, _, _, _ => by
    intro h
    simp [subst] at h
  | fuel + 1, pat, env, u => by
    intro h
    simp only [subst] at h ⊢
    split_ifs at h ⊢ with hv
    · cases hl : envLookup env pat.varName with
      | none =>
        rw [hl] at h
        exact h
      | some v =>
        rw [hl] at h
        exact subst_mono fuel v env u h
    · match pat with
      | .atom s => exact h
      | .tup es =>
        simp only [Option.map_eq_some'] at h ⊢
        obtain ⟨us, hus, rfl⟩ := h
        exact ⟨us, substList_mono fuel es env us hus, rfl⟩
      | .lst es =>
        simp only [Option.map_eq_some'] at h ⊢
        obtain ⟨us, hus, rfl⟩ := h
        exact ⟨us, substList_mono fuel es env us hus, rfl⟩
termination_by structural fuel _ _ _ => fuel

theorem substList_mono : ∀ fuel ps env us, substList fuel ps env = some us →
    substList (fuel + 1) ps env = some us
  | 0, _, _, _ => by
    intro h
    simp [substList] at h
  | fuel + 1, [], env, us => by
    intro h
    exact h
  | fuel + 1, p :: ps, env, us => by
    intro h
    simp only [substList] at h ⊢
    split at h
    · cases h
    · rename_i u hu
      rw [subst_mono fuel p env u hu]
      split at h
      · cases h
      · rename_i us' hus
        rw [substList_mono fuel ps env us' hus]
        exact h
termination_by structural fuel _ _ _ => fuel
end

theorem subst_le {m n : Nat} {pat : Term} {env : Env} {u : Term} (hmn : m ≤ n)
    (h : subst m pat env = some u) : subst n pat env = some u := by
  induction hmn with
  | refl => exact h
  | step _ ih => exact subst_mono _ _ _ _ ih

theorem substList_le {m n : Nat} {ps : List Term} {env : Env} {us : List Term}
    (hmn : m ≤ n) (h : substList m ps env = some us) : substList n ps env = some us := by
  induction hmn with
  | refl => exact h
  | step _ ih => exact substList_mono _ _ _ _ ih

mutual
theorem subst_ground : ∀ (g : Term) (env : Env), g.isGround = true →
    ∃ n, 0 < n ∧ subst n g env = some g
  | .atom s, env, h =>
    ⟨1, Nat.one_pos, by
      have hv : Term.isVar (.atom s) = false := ground_not_var h
      simp only [subst, hv, Bool.false_eq_true, if_false]⟩
  | .tup es, env, h => by
    obtain ⟨n, hn⟩ := substList_ground es env (by simpa [Term.isGround] using h)
    exact ⟨n + 1, Nat.succ_pos n, by
      simp only [subst, Term.isVar, Bool.false_eq_true, if_false, hn, Option.map_some']⟩
  | .lst es, env, h => by
    obtain ⟨n, hn⟩ := substList_ground es env (by simpa [Term.isGround] using h)
    exact ⟨n + 1, Nat.succ_pos n, by
      simp only [subst, Term.isVar, Bool.false_eq_true, if_false, hn, Option.map_some']⟩
termination_by structural g _ => g

theorem substList_ground : ∀ (gs : List Term) (env : Env), Term.isGroundList gs = true →
    ∃ n, substList n gs env = some gs
  | [], env, _ => ⟨1, rfl⟩
  | g :: gs, env, h => by
    rw [isGroundList_cons] at h
    obtain ⟨n₁, hpos, h₁⟩ := subst_ground g env h.1
    obtain ⟨n₂, h₂⟩ := substList_ground gs env h.2
    refine ⟨max n₁ n₂ + 1, ?_⟩
    simp only [substList]
    rw [subst_le (Nat.le_max_left n₁ n₂) h₁, substList_le (Nat.le_max_right n₁ n₂) h₂]
termination_by structural gs _ => gs
end

/-! ### membership forms of the list predicates -/

theorem groundList_mem {l : List Term} (h : Term.isGroundList l = true) :
    ∀ x ∈ l, x.isGround = true := by
  induction l with
  | nil => intro x hx; simp at hx
  | cons a l ih =>
    rw [isGroundList_cons] at h
    intro x hx
    rcases List.mem_cons.mp hx with rfl | hx
    · exact h.1
    · exact ih h.2 x hx

theorem noLstList_mem {l : List Term} (h : Term.noLstList l = true) :
    ∀ x ∈ l, x.noLst = true := by
  induction l with
  | nil => intro x hx; simp at hx
  | cons a l ih =>
    rw [noLstList_cons] at h
    intro x hx
    rcases List.mem_cons.mp hx with rfl | hx
    · exact h.1
    · exact ih h.2 x hx

theorem noLst_args {t : Term} (h : t.noLst = true) : Term.noLstList t.args = true := by
  cases t with
  | atom s => rfl
  | tup es => exact h
  | lst es => simp [Term.noLst] at h

theorem envAll_mono {P Q : Term → Bool} (hPQ : ∀ x, P x = true → Q x = true)
    {env : Env} (h : envAll P env = true) : envAll Q env = true := by
  simp only [envAll, List.all_eq_true] at h ⊢
  exact fun kv hkv => hPQ kv.2 (h kv hkv)

/-! ### the round trip: a successful unification against a ground term lets
subst rebuild that term up to the tuple/list distinction -/

mutual
theorem unify_subst_canon : ∀ fuel pat term env e, term.isGround = true →
    envAll Term.isGround env = true → unify fuel pat term env = some (some e) →
    ∀ e', envExtends e e' → ∃ n u, subst n pat e' = some u ∧ u.canon = term.canon
  | 0, _, _, _, _ => by
    intro _ _ h
    simp [unify] at h
  | fuel + 1, pat, term, env, e => by
    intro ht henv h e' hee
    simp only [unify] at h
    split_ifs at h with h1 h2 h3 h4 h5
    · cases h
      obtain ⟨n, _, hs⟩ := subst_ground pat e' (h1 ▸ ht)
      exact ⟨n, pat, hs, by rw [h1]⟩
    · split at h
      · rename_i v hl
        have hv : v.isGround = true := envAll_lookup henv hl
        have hcanon := (unify_ground_ground fuel v term env e hv ht h).1
        have hle : envLookup e' pat.varName = some v :=
          hee _ _ (unify_extends fuel v term env e h _ _ hl)
        obtain ⟨n, _, hs⟩ := subst_ground v e' hv
        refine ⟨n + 1, v, ?_, hcanon⟩
        simp only [subst, h2, if_true, hle]
        exact hs
      · rename_i hl
        cases h
        have hle : envLookup e' pat.varName = some term :=
          hee _ _ (envLookup_append_self term hl)
        obtain ⟨n, _, hs⟩ := subst_ground term e' ht
        refine ⟨n + 1, term, ?_, rfl⟩
        simp only [subst, h2, if_true, hle]
        exact hs
    · exact absurd h3 (by simp [ground_not_var ht])
    · rw [Bool.and_eq_true] at h4
      obtain ⟨n, us, hsus, hcus⟩ := unifyList_subst_canon fuel pat.args term.args env e
        (ground_args ht) henv h5 h e' hee
      cases hp : pat with
      | atom s => rw [hp] at h4; simp [Term.isSeq] at h4
      | tup es =>
        refine ⟨n + 1, .tup us, ?_, ?_⟩
        · have : Term.isVar (.tup es) = false := rfl
          rw [hp] at hsus
          simp only [subst, this, Bool.false_eq_true, if_false]
          rw [show (Term.tup es).args = es from rfl] at hsus
          rw [hsus]
          rfl
        · rw [canon_of_seq h4.2, ← hcus]
          rfl
      | lst es =>
        refine ⟨n + 1, .lst us, ?_, ?_⟩
        · have : Term.isVar (.lst es) = false := rfl
          rw [hp] at hsus
          simp only [subst, this, Bool.false_eq_true, if_false]
          rw [show (Term.lst es).args = es from rfl] at hsus
          rw [hsus]
          rfl
        · rw [canon_of_seq h4.2, ← hcus]
          rfl
    · cases h
    · cases h
termination_by structural fuel _ _ _ _ => fuel

theorem unifyList_subst_canon : ∀ fuel ps ts env e, Term.isGroundList ts = true →
    envAll Term.isGround env = true → ps.length = ts.length →
    unifyList fuel ps ts env = some (some e) →
    ∀ e', envExtends e e' → ∃ n us, substList n ps e' = some us ∧
      Term.canonList us = Term.canonList ts
  | 0, _, _, _, _ => by
    intro _ _ _ h
    simp [unifyList] at h
  | fuel + 1, [], ts, env, e => by
    intro _ _ hlen h e' hee
    cases ts with
    | nil => exact ⟨1, [], rfl, rfl⟩
    | cons t ts => simp at hlen
  | fuel + 1, _ :: _, [], env, e => by
    intro _ _ hlen h
    simp at hlen
  | fuel + 1, p :: ps, t :: ts, env, e => by
    intro hts henv hlen h e' hee
    rw [isGroundList_cons] at hts
    simp only [unifyList] at h
    split at h
    · cases h
    · cases h
    · rename_i e₁ hhead
      have henv₁ : envAll Term.isGround e₁ = true :=
        unify_envAll (fun u hu => ground_not_var hu)
          (fun u hu => groundList_mem (ground_args hu)) fuel p t env e₁ hts.1 henv hhead
      have hext₁ : envExtends e₁ e := unifyList_extends fuel ps ts e₁ e h
      obtain ⟨n₁, u, hsu, hcu⟩ := unify_subst_canon fuel p t env e₁ hts.1 henv hhead e'
        (envExtends_trans hext₁ hee)
      obtain ⟨n₂, us, hsus, hcus⟩ := unifyList_subst_canon fuel ps ts e₁ e hts.2 henv₁
        (by simpa using hlen) h e' hee
      refine ⟨max n₁ n₂ + 1, u :: us, ?_, ?_⟩
      · simp only [substList]
        rw [subst_le (Nat.le_max_left n₁ n₂) hsu, substList_le (Nat.le_max_right n₁ n₂) hsus]
      · rw [canonList_cons, canonList_cons, hcu, hcus]
termination_by structural fuel _ _ _ _ => fuel
end

/-! ### subst preserves absence of Python lists -/

mutual
theorem subst_noLst : ∀ fuel pat env u, pat.noLst = true →
    envAll Term.noLst env = true → subst fuel pat env = some u → u.noLst = true
  | 0, _, _, _ => by
    intro _ _ h
    simp [subst] at h
  | fuel + 1, pat, env, u => by
    intro hp henv h
    simp only [subst] at h
    split_ifs at h with hv
    · split at h
      · rename_i v hl
        exact subst_noLst fuel v env u (envAll_lookup henv hl) henv h
      · cases h
        exact hp
    · match pat with
      | .atom s =>
        cases h
        exact hp
      | .tup es =>
        simp only [Option.map_eq_some'] at h
        obtain ⟨us, hus, rfl⟩ := h
        exact substList_noLst fuel es env us hp henv hus
      | .lst es => simp [Term.noLst] at hp
termination_by structural fuel _ _ _ => fuel

theorem substList_noLst : ∀ fuel ps env us, Term.noLstList ps = true →
    envAll Term.noLst env = true → substList fuel ps env = some us →
    Term.noLstList us = true
  | 0, _, _, _ => by
    intro _ _ h
    simp [substList] at h
  | fuel + 1, [], env, us => by
    intro _ _ h
    cases h
    rfl
  | fuel + 1, p :: ps, env, us => by
    intro hp henv h
    rw [noLstList_cons] at hp
    simp only [substList] at h
    split at h
    · cases h
    · rename_i u hu
      split at h
      · cases h
      · rename_i us' hus
        cases h
        rw [noLstList_cons]
        exact ⟨subst_noLst fuel p env u hp.1 henv hu,
          substList_noLst fuel ps env us' hp.2 henv hus⟩
termination_by structural fuel _ _ _ => fuel
end

/-! ### Claim C4: the subst/unify round trip -/

/-- C4 counterexample: the claim "for every ground term t and pattern p with
unify(p, t) succeeding with environment e, subst(p, e) reconstructs a term
equal to t" fails at the list pattern ["a"] against the ground tuple term
("a",): unify succeeds (it treats lists and tuples alike) with the empty
environment, but subst preserves the list shape, and in Python a list is
never equal to a tuple, so no amount of fuel makes subst return t. -/
theorem C4_counterexample :
    (Term.tup [Term.atom "a"]).isGround = true ∧
    unify 5 (Term.lst [Term.atom "a"]) (Term.tup [Term.atom "a"]) [] = some (some []) ∧
    ∀ n, subst n (Term.lst [Term.atom "a"]) [] ≠ some (Term.tup [Term.atom "a"]) := by
  refine ⟨by decide, by decide, ?_⟩
  intro n hcontra
  rcases Nat.lt_or_ge n 3 with hn | hn
  · interval_cases n
    · exact absurd hcontra (by decide)
    · exact absurd hcontra (by decide)
    · exact absurd hcontra (by decide)
  · have h3 : subst 3 (Term.lst [Term.atom "a"]) [] = some (Term.lst [Term.atom "a"]) := by
      decide
    rw [subst_le hn h3] at hcontra
    exact absurd hcontra (by decide)

/-- C4 amended: for every ground term t and pattern p such that unify(p, t)
succeeds with environment e, subst(p, e) reconstructs a term equal to t up
to the tuple/list distinction (their canonical forms agree); when p and t
contain no Python list — in particular for the tuple-shaped facts this
engine manipulates — the reconstruction is exactly t. -/
theorem C4_amended : ∀ fuel (p t : Term) (e : Env), t.isGround = true →
    unify fuel p t [] = some (some e) →
    ∃ n u, subst n p e = some u ∧ u.canon = t.canon ∧
      (p.noLst = true → t.noLst = true → u = t) := by
  intro fuel p t e ht h
  obtain ⟨n, u, hs, hc⟩ := unify_subst_canon fuel p t [] e ht rfl h e (envExtends_refl e)
  refine ⟨n, u, hs, hc, ?_⟩
  intro hp htl
  have henvP : envAll (fun x => x.isGround && x.noLst) e = true :=
    unify_envAll
      (fun x hx => ground_not_var (Bool.and_elim_left hx))
      (fun x hx y hy => by
        rw [Bool.and_eq_true] at hx
        rw [Bool.and_eq_true]
        exact ⟨groundList_mem (ground_args hx.1) y hy, noLstList_mem (noLst_args hx.2) y hy⟩)
      fuel p t [] e (by rw [Bool.and_eq_true]; exact ⟨ht, htl⟩) rfl h
  have hu : u.noLst = true := subst_noLst n p e u hp
    (envAll_mono (fun x hx => Bool.and_elim_right hx) henvP) hs
  calc u = u.canon := (canon_eq_self_of_noLst u hu).symm
    _ = t.canon := hc
    _ = t := canon_eq_self_of_noLst t htl

/-- Witness for C4 amended at a concrete instance: the pattern
("requires", ?c, "CS101") unified against the ground tuple
("requires", "CS102", "CS101") yields an environment from which subst
rebuilds exactly the ground term. -/
theorem C4_witness :
    ∃ n u, subst n (Term.tup [Term.atom "requires", Term.atom "?c", Term.atom "CS101"])
        [("?c", Term.atom "CS102")] = some u ∧
      u.canon = (Term.tup [Term.atom "requires", Term.atom "CS102", Term.atom "CS101"]).canon ∧
      ((Term.tup [Term.atom "requires", Term.atom "?c", Term.atom "CS101"]).noLst = true →
        (Term.tup [Term.atom "requires", Term.atom "CS102", Term.atom "CS101"]).noLst = true →
        u = Term.tup [Term.atom "requires", Term.atom "CS102", Term.atom "CS101"]) :=
  C4_amended 5 _ _ _ (by decide) (by decide)

/-! ### Claim C6: unify on sequences -/

theorem unifyList_self : ∀ (fuel : Nat) (ps : List Term) (env : Env), ps.length < fuel →
    unifyList fuel ps ps env = some (some env)
  | 0, ps, env, h => by simp at h
  | fuel + 1, [], env, h => rfl
  | fuel + 1, p :: ps, env, h => by
    have h' : ps.length + 1 < fuel + 1 := by simpa using h
    simp only [unifyList]
    obtain ⟨k, rfl⟩ : ∃ k, fuel = k + 1 := ⟨fuel - 1, by omega⟩
    have hself : unify (k + 1) p p env = some (some env) := by
      simp [unify]
    rw [hself]
    exact unifyList_self (k + 1) ps env (by simpa using h)

theorem seq_not_var {t : Term} (h : t.isSeq = true) : t.isVar = false := by
  cases t with
  | atom s => simp [Term.isSeq] at h
  | tup es => rfl
  | lst es => rfl

/-- C6: unify on two sequences succeeds only when they have equal length,
in which case the result is that of element-wise unification threading the
environment left to right; the concrete example from the spec binds ?c to
"CS102"; arity mismatches, constant mismatches, and any other shape
mismatch (a sequence against a non-variable atom) return the failure
signal, not an error. -/
theorem C6_unify_sequences :
    (∀ fuel (p t : Term) (env e : Env), p.isSeq = true → t.isSeq = true →
      unify fuel p t env = some (some e) → p.args.length = t.args.length) ∧
    (∀ fuel (p t : Term) (env e : Env), p.isSeq = true → t.isSeq = true →
      unify fuel p t env = some (some e) →
      ∃ fuel', unifyList fuel' p.args t.args env = some (some e)) ∧
    unify 5 (Term.tup [Term.atom "requires", Term.atom "?c", Term.atom "CS101"])
      (Term.tup [Term.atom "requires", Term.atom "CS102", Term.atom "CS101"]) []
      = some (some [("?c", Term.atom "CS102")]) ∧
    unify 5 (Term.tup [Term.atom "requires", Term.atom "?c", Term.atom "CS101"])
      (Term.tup [Term.atom "requires", Term.atom "CS102"]) [] = some none ∧
    unify 5 (Term.tup [Term.atom "requires", Term.atom "?c", Term.atom "CS101"])
      (Term.tup [Term.atom "offered", Term.atom "CS102", Term.atom "CS101"]) []
      = some none ∧
    (∀ fuel (p t : Term) (env : Env), 0 < fuel → p.isSeq = true → t.isSeq = false →
      t.isVar = false → unify fuel p t env = some none) := by
  refine ⟨?_, ?_, by decide, by decide, by decide, ?_⟩
  · intro fuel p t env e hp ht h
    match fuel with
    | 0 => simp [unify] at h
    | fuel + 1 =>
      simp only [unify] at h
      split_ifs at h with h1 h2 h3 h4 h5
      · rw [h1]
      · exact absurd h2 (by simp [seq_not_var hp])
      · exact absurd h3 (by simp [seq_not_var ht])
      · exact h5
      · cases h
      · cases h
  · intro fuel p t env e hp ht h
    match fuel with
    | 0 => simp [unify] at h
    | fuel + 1 =>
      simp only [unify] at h
      split_ifs at h with h1 h2 h3 h4 h5
      · cases h
        refine ⟨p.args.length + 1, ?_⟩
        rw [h1]
        exact unifyList_self _ _ _ (Nat.lt_succ_self _)
      · exact absurd h2 (by simp [seq_not_var hp])
      · exact absurd h3 (by simp [seq_not_var ht])
      · exact ⟨fuel, h⟩
      · cases h
      · cases h
  · intro fuel p t env hfuel hp ht hv
    match fuel with
    | 0 => simp at hfuel
    | fuel + 1 =>
      have hne : ¬(p = t) := by
        intro hc
        rw [hc, ht] at hp
        cases hp
      simp only [unify, hne, if_false, seq_not_var hp, Bool.false_eq_true, hv, hp, ht,
        Bool.and_false]

/-- Witness for C6's quantified conjuncts at a concrete instance: the
element-wise account of the spec's example. -/
theorem C6_witness :
    (Term.tup [Term.atom "requires", Term.atom "?c", Term.atom "CS101"]).args.length
        = (Term.tup [Term.atom "requires", Term.atom "CS102", Term.atom "CS101"]).args.length ∧
    unify 3 (Term.tup [Term.atom "a"]) (Term.atom "b") [] = some none := by
  constructor
  · exact C6_unify_sequences.1 5 _ _ []
      [("?c", Term.atom "CS102")] (by decide) (by decide) (by decide)
  · exact C6_unify_sequences.2.2.2.2.2 3 _ _ [] (by decide) (by decide) (by decide) (by decide)

/-! ## The CLTMS belief graph (cltms.py)

Nodes live in `CLTMS.nodes` and are addressed by their index (Python numbers
them with a counter and stores them in an id-keyed dict whose iteration
order is insertion order; a list indexed from 0 is the same store).
Justification objects live in `CLTMS.justs`, addressed by index; a node's
`supporting_justification` and `consequences` hold such indices in place of
Python's object references. -/

/-- Truth labels (the Polarity enum of cltms.py). -/
inductive Polarity where
  | TRUE
  | FALSE
  | UNKNOWN
deriving DecidableEq

/-- A justification: informant tag, consequent node index, antecedent node
indices (cltms.py's Justification). -/
structure Justification where
  informant : Term
  consequent : Nat
  antecedents : List Nat
deriving DecidableEq

/-- A belief node (cltms.py's Node).  The Python `id` field is the node's
index in the store and is not duplicated here.  Python's assumption set is
a duplicate-free list (insertion adds only absent informants). -/
structure Node where
  datum : Term
  label : Polarity
  supporting_justification : Option Nat
  assumptions : List Term
  consequences : List Nat
deriving DecidableEq

/-- The TMS state (cltms.py's CLTMS; the title/debugging fields play no
role in the semantics and are omitted). -/
structure CLTMS where
  nodes : List Node
  justs : List Justification
deriving DecidableEq

/-- Update the element at an index, leaving other positions (and a too-short
list) unchanged. -/
def listUpdate {α : Type} : List α → Nat → (α → α) → List α
  | [], _, _ => []
  | a :: as, 0, f => f a :: as
  | a :: as, n + 1, f => a :: listUpdate as n f

theorem listUpdate_length {α : Type} : ∀ (l : List α) (i : Nat) (f : α → α),
    (listUpdate l i f).length = l.length
  | [], _, _ => rfl
  | _ :: as, 0, f => rfl
  | _ :: as, n + 1, f => by simp [listUpdate, listUpdate_length as n f]

theorem listUpdate_get_eq {α : Type} : ∀ (l : List α) (i : Nat) (f : α → α),
    (listUpdate l i f).get? i = (l.get? i).map f
  | [], _, _ => rfl
  | _ :: as, 0, _ => rfl
  | _ :: as, n + 1, f => by
    simp only [listUpdate, List.get?_cons_succ]
    exact listUpdate_get_eq as n f

theorem listUpdate_get_ne {α : Type} : ∀ (l : List α) (i : Nat) (f : α → α) (j : Nat),
    j ≠ i → (listUpdate l i f).get? j = l.get? j
  | [], _, _, _, _ => rfl
  | a :: as, 0, f, 0, h => absurd rfl h
  | a :: as, 0, f, j + 1, _ => rfl
  | a :: as, n + 1, f, 0, _ => rfl
  | a :: as, n + 1, f, j + 1, h => by
    simp only [listUpdate, List.get?_cons_succ]
    exact listUpdate_get_ne as n f j (fun hc => h (by rw [hc]))

theorem get_append_left {α : Type} : ∀ (l l' : List α) (i : Nat), i < l.length →
    (l ++ l').get? i = l.get? i
  | [], _, i, h => by simp at h
  | a :: as, l', 0, _ => rfl
  | a :: as, l', i + 1, h => by
    simp only [List.cons_append, List.get?_cons_succ]
    exact get_append_left as l' i (by simpa using h)

theorem get_append_length {α : Type} : ∀ (l : List α) (a : α),
    (l ++ [a]).get? l.length = some a
  | [], a => rfl
  | b :: as, a => by
    simp only [List.cons_append, List.length_cons, List.get?_cons_succ]
    exact get_append_length as a

/-- Node accessor (Python attribute access through the id-keyed dict). -/
def getNode (s : CLTMS) (n : Nat) : Option Node :=
  s.nodes.get? n

/-- Update one node in place. -/
def updateNode (s : CLTMS) (n : Nat) (f : Node → Node) : CLTMS :=
  { s with nodes := listUpdate s.nodes n f }

/-- A node's label, defaulting to UNKNOWN off the store. -/
def getLabel (s : CLTMS) (n : Nat) : Polarity :=
  match getNode s n with
  | some nd => nd.label
  | none => Polarity.UNKNOWN

/-- A node's assumption set, defaulting to empty off the store. -/
def assumptionsOf (s : CLTMS) (n : Nat) : List Term :=
  match getNode s n with
  | some nd => nd.assumptions
  | none => []

/-- A node's stored supporting justification, defaulting to none. -/
def supportingOf (s : CLTMS) (n : Nat) : Option Nat :=
  match getNode s n with
  | some nd => nd.supporting_justification
  | none => none

/-- A node's consequence list, defaulting to empty. -/
def consequencesOf (s : CLTMS) (n : Nat) : List Nat :=
  match getNode s n with
  | some nd => nd.consequences
  | none => []

/-- Justification.is_valid of cltms.py: every antecedent is labelled TRUE.
An index off the store counts as not valid (unreachable in engine states). -/
def is_valid (s : CLTMS) (j : Nat) : Bool :=
  match s.justs.get? j with
  | some J => J.antecedents.all (fun a => decide (getLabel s a = Polarity.TRUE))
  | none => false

/-- The Python test `node.supporting_justification and
node.supporting_justification.is_valid()`. -/
def supportingValid (s : CLTMS) (n : Nat) : Bool :=
  match supportingOf s n with
  | some j => is_valid s j
  | none => false

/-- First node whose datum equals the given one (the linear scan of
create_node), returning its index. -/
def findNode : List Node → Term → Nat → Option Nat
  | [], _, _ => none
  | nd :: rest, d, i => if nd.datum = d then some i else findNode rest d (i + 1)

/-- create_node from cltms.py: return the existing node with a structurally
equal datum, else append a fresh UNKNOWN node.  (Python's unused
`assumption` parameter is ignored by the source too.)  Returns the state
and the node's index. -/
def create_node (s : CLTMS) (datum : Term) : CLTMS × Nat :=
  match findNode s.nodes datum 0 with
  | some i => (s, i)
  | none =>
    ({ s with nodes := s.nodes ++ [⟨datum, Polarity.UNKNOWN, none, [], []⟩] },
      s.nodes.length)

/-- is_true from cltms.py. -/
def is_true (s : CLTMS) (n : Nat) : Bool :=
  decide (getLabel s n = Polarity.TRUE)

/-- is_false from cltms.py. -/
def is_false (s : CLTMS) (n : Nat) : Bool :=
  decide (getLabel s n = Polarity.FALSE)

/-- Python set.add: insert only when absent. -/
def addInformant (l : List Term) (i : Term) : List Term :=
  if i ∈ l then l else l ++ [i]

/-- Python `if informant in node.assumptions: node.assumptions.remove(...)`:
drop the informant if present. -/
def removeInformant (l : List Term) (i : Term) : List Term :=
  l.filter (fun x => !decide (x = i))

/-- Node updater for `node.label = value` in cltms.py. -/
def setLabelF (v : Polarity) : Node → Node :=
  fun m => { m with label := v }

/-- Node updater for `node.label = TRUE; node.supporting_justification = just`. -/
def setTrueSupp (j : Nat) : Node → Node :=
  fun m => { m with label := Polarity.TRUE, supporting_justification := some j }

/-- Node updater for `node.label = UNKNOWN; node.supporting_justification = None`. -/
def setUnknownClear : Node → Node :=
  fun m => { m with label := Polarity.UNKNOWN, supporting_justification := none }

/-- Node updater for `node.assumptions.add(informant)`. -/
def addAssumF (i : Term) : Node → Node :=
  fun m => { m with assumptions := addInformant m.assumptions i }

/-- Node updater for removing an informant from `node.assumptions`. -/
def removeAssumF (i : Term) : Node → Node :=
  fun m => { m with assumptions := removeInformant m.assumptions i }

/-- Node updater for `consequent.supporting_justification = just`. -/
def setSuppF (j : Nat) : Node → Node :=
  fun m => { m with supporting_justification := some j }

/-- Node updater for `ant.consequences.append(just)`. -/
def pushConsF (j : Nat) : Node → Node :=
  fun m => { m with consequences := m.consequences ++ [j] }

/-- The `for ant in antecedents: ant.consequences.append(just)` loop of
add_support. -/
def linkAll (j : Nat) : CLTMS → List Nat → CLTMS
  | st, [] => st
  | st, a :: rest => linkAll j (updateNode st a (pushConsF j)) rest

mutual
/-- propagate from cltms.py: nothing to do unless the node is TRUE,
otherwise walk its consequence list; each valid justification whose
consequent is not yet TRUE marks the consequent TRUE with that support and
recurses on it.  Fueled: `none` means the recursion was still running. -/
def propagate : Nat → CLTMS → Nat → Option CLTMS
  | 0, _, _ => none
  | fuel + 1, s, n =>
    match getNode s n with
    | none => some s
    | some nd =>
      if nd.label = Polarity.TRUE then propagateList fuel s nd.consequences
      else some s
termination_by structural fuel _ _ => fuel

/-- The `for just in node.consequences` loop of propagate. -/
def propagateList : Nat → CLTMS → List Nat → Option CLTMS
  | 0, _, _ => none
  | _ + 1, s, [] => some s
  | fuel + 1, s, j :: rest =>
    match s.justs.get? j with
    | none => propagateList fuel s rest
    | some J =>
      if is_valid s j ∧ getLabel s J.consequent ≠ Polarity.TRUE then
        let s₁ := updateNode s J.consequent (setTrueSupp j)
        match propagate fuel s₁ J.consequent with
        | none => none
        | some s₂ => propagateList fuel s₂ rest
      else propagateList fuel s rest
termination_by structural fuel _ _ => fuel
end

mutual
/-- re_evaluate from cltms.py: (a) a nonempty assumption set keeps the node
TRUE; (b) else a still-valid stored justification keeps it TRUE; (c) else a
node not already UNKNOWN is set UNKNOWN, its stored justification cleared,
and every consequent of a justification it feeds is re-evaluated. -/
def re_evaluate : Nat → CLTMS → Nat → Option CLTMS
  | 0, _, _ => none
  | fuel + 1, s, n =>
    match getNode s n with
    | none => some s
    | some nd =>
      if nd.assumptions ≠ [] then
        some (updateNode s n (setLabelF Polarity.TRUE))
      else if supportingValid s n then
        some (updateNode s n (setLabelF Polarity.TRUE))
      else if nd.label ≠ Polarity.UNKNOWN then
        let s₁ := updateNode s n setUnknownClear
        reEvalList fuel s₁ nd.consequences
      else some s
termination_by structural fuel _ _ => fuel

/-- The cascade loop of re_evaluate: re-evaluate the consequent of each
justification in the node's consequence list. -/
def reEvalList : Nat → CLTMS → List Nat → Option CLTMS
  | 0, _, _ => none
  | _ + 1, s, [] => some s
  | fuel + 1, s, j :: rest =>
    match s.justs.get? j with
    | none => reEvalList fuel s rest
    | some J =>
      match re_evaluate fuel s J.consequent with
      | none => none
      | some s' => reEvalList fuel s' rest
termination_by structural fuel _ _ => fuel
end

/-- enable_assumption from cltms.py: no-op if the informant is already
present with a matching label; otherwise record the informant and, if the
label changes, set it and propagate. -/
def enable_assumption (fuel : Nat) (s : CLTMS) (n : Nat) (value : Polarity)
    (informant : Term) : Option CLTMS :=
  match getNode s n with
  | none => some s
  | some nd =>
    if informant ∈ nd.assumptions ∧ nd.label = value then some s
    else
      let s₁ := updateNode s n (addAssumF informant)
      if nd.label ≠ value then
        let s₂ := updateNode s₁ n (setLabelF value)
        propagate fuel s₂ n
      else some s₁

/-- retract_assumption from cltms.py: drop the informant (when present) and
re-evaluate the node. -/
def retract_assumption (fuel : Nat) (s : CLTMS) (n : Nat) (informant : Term) :
    Option CLTMS :=
  let s₁ :=
    match getNode s n with
    | none => s
    | some _ => updateNode s n (removeAssumF informant)
  re_evaluate fuel s₁ n

/-- add_support from cltms.py: create the justification, make it the
consequent's stored support ("last one wins"), append it to every
antecedent's consequence list (once per occurrence), then, if it is
immediately valid and the consequent is not yet TRUE, mark the consequent
TRUE with this support and propagate. -/
def add_support (fuel : Nat) (s : CLTMS) (consequent : Nat)
    (antecedents : List Nat) (informant : Term) : Option CLTMS :=
  let j := s.justs.length
  let s₁ : CLTMS := { s with justs := s.justs ++ [⟨informant, consequent, antecedents⟩] }
  let s₂ := updateNode s₁ consequent (setSuppF j)
  let s₃ := linkAll j s₂ antecedents
  if is_valid s₃ j then
    if getLabel s₃ consequent ≠ Polarity.TRUE then
      let s₄ := updateNode s₃ consequent (setTrueSupp j)
      propagate fuel s₄ consequent
    else some s₃
  else some s₃

/-- The empty TMS (a freshly constructed CLTMS). -/
def emptyTMS : CLTMS := ⟨[], []⟩

/-! ### Accessor lemmas for node updates -/

theorem getNode_update_self (s : CLTMS) (x : Nat) (f : Node → Node) :
    getNode (updateNode s x f) x = (getNode s x).map f :=
  listUpdate_get_eq s.nodes x f

theorem getNode_update_other (s : CLTMS) (x : Nat) (f : Node → Node) {m : Nat}
    (h : m ≠ x) : getNode (updateNode s x f) m = getNode s m :=
  listUpdate_get_ne s.nodes x f m h

theorem justs_update (s : CLTMS) (x : Nat) (f : Node → Node) :
    (updateNode s x f).justs = s.justs := rfl

theorem nodesLen_update (s : CLTMS) (x : Nat) (f : Node → Node) :
    (updateNode s x f).nodes.length = s.nodes.length :=
  listUpdate_length s.nodes x f

theorem getLabel_update_other {s : CLTMS} {x : Nat} {f : Node → Node} {m : Nat}
    (h : m ≠ x) : getLabel (updateNode s x f) m = getLabel s m := by
  unfold getLabel
  rw [getNode_update_other s x f h]

theorem getLabel_update_keep {s : CLTMS} {x : Nat} {f : Node → Node}
    (hf : ∀ nd, (f nd).label = nd.label) (m : Nat) :
    getLabel (updateNode s x f) m = getLabel s m := by
  unfold getLabel
  by_cases hmx : m = x
  · subst hmx
    rw [getNode_update_self]
    cases getNode s m with
    | none => rfl
    | some nd => simp [hf]
  · rw [getNode_update_other s x f hmx]

theorem getLabel_update_set {s : CLTMS} {x : Nat} {f : Node → Node} {v : Polarity}
    (hf : ∀ nd, (f nd).label = v) {nd : Node} (hx : getNode s x = some nd) :
    getLabel (updateNode s x f) x = v := by
  unfold getLabel
  rw [getNode_update_self, hx]
  simp [hf]

theorem assumptionsOf_update_keep {s : CLTMS} {x : Nat} {f : Node → Node}
    (hf : ∀ nd, (f nd).assumptions = nd.assumptions) (m : Nat) :
    assumptionsOf (updateNode s x f) m = assumptionsOf s m := by
  unfold assumptionsOf
  by_cases hmx : m = x
  · subst hmx
    rw [getNode_update_self]
    cases getNode s m with
    | none => rfl
    | some nd => simp [hf]
  · rw [getNode_update_other s x f hmx]

theorem supportingOf_update_keep {s : CLTMS} {x : Nat} {f : Node → Node}
    (hf : ∀ nd, (f nd).supporting_justification = nd.supporting_justification) (m : Nat) :
    supportingOf (updateNode s x f) m = supportingOf s m := by
  unfold supportingOf
  by_cases hmx : m = x
  · subst hmx
    rw [getNode_update_self]
    cases getNode s m with
    | none => rfl
    | some nd => simp [hf]
  · rw [getNode_update_other s x f hmx]

theorem supportingOf_update_other {s : CLTMS} {x : Nat} {f : Node → Node} {m : Nat}
    (h : m ≠ x) : supportingOf (updateNode s x f) m = supportingOf s m := by
  unfold supportingOf
  rw [getNode_update_other s x f h]

theorem supportingOf_update_set {s : CLTMS} {x : Nat} {f : Node → Node} {o : Option Nat}
    (hf : ∀ nd, (f nd).supporting_justification = o) {nd : Node}
    (hx : getNode s x = some nd) : supportingOf (updateNode s x f) x = o := by
  unfold supportingOf
  rw [getNode_update_self, hx]
  simp [hf]

theorem consequencesOf_update_keep {s : CLTMS} {x : Nat} {f : Node → Node}
    (hf : ∀ nd, (f nd).consequences = nd.consequences) (m : Nat) :
    consequencesOf (updateNode s x f) m = consequencesOf s m := by
  unfold consequencesOf
  by_cases hmx : m = x
  · subst hmx
    rw [getNode_update_self]
    cases getNode s m with
    | none => rfl
    | some nd => simp [hf]
  · rw [getNode_update_other s x f hmx]

theorem assumptionsOf_update_other {s : CLTMS} {x : Nat} {f : Node → Node} {m : Nat}
    (h : m ≠ x) : assumptionsOf (updateNode s x f) m = assumptionsOf s m := by
  unfold assumptionsOf
  rw [getNode_update_other s x f h]

/-! ### Validity lemmas -/

/-- Antecedent list of a justification index. -/
def antsOf (s : CLTMS) (j : Nat) : List Nat :=
  match s.justs.get? j with
  | some J => J.antecedents
  | none => []

theorem is_valid_true_iff {s : CLTMS} {j : Nat} : is_valid s j = true ↔
    ∃ J, s.justs.get? j = some J ∧ ∀ a ∈ J.antecedents, getLabel s a = Polarity.TRUE := by
  unfold is_valid
  cases hj : s.justs.get? j with
  | none => simp
  | some J => simp [List.all_eq_true]

theorem is_valid_congr {s t : CLTMS} (hj : t.justs = s.justs)
    (hl : ∀ a, getLabel t a = getLabel s a) (j : Nat) : is_valid t j = is_valid s j := by
  unfold is_valid
  rw [hj]
  cases s.justs.get? j with
  | none => rfl
  | some J => simp [hl]

/-- Raising one node's label to TRUE keeps TRUE labels TRUE everywhere. -/
theorem getLabel_raise {s : CLTMS} {x : Nat} {f : Node → Node}
    (hf : ∀ nd, (f nd).label = Polarity.TRUE) {m : Nat}
    (h : getLabel s m = Polarity.TRUE) :
    getLabel (updateNode s x f) m = Polarity.TRUE := by
  by_cases hmx : m = x
  · subst hmx
    unfold getLabel at h ⊢
    rw [getNode_update_self]
    cases hg : getNode s m with
    | none =>
      rw [hg] at h
      simp at h
    | some nd => simp [hf]
  · rw [getLabel_update_other hmx]
    exact h

/-- A valid justification stays valid when a label is raised to TRUE. -/
theorem is_valid_raise {s : CLTMS} {x : Nat} {f : Node → Node}
    (hf : ∀ nd, (f nd).label = Polarity.TRUE) {j : Nat}
    (h : is_valid s j = true) : is_valid (updateNode s x f) j = true := by
  rw [is_valid_true_iff] at h ⊢
  obtain ⟨J, hJ, hants⟩ := h
  exact ⟨J, hJ, fun a ha => getLabel_raise hf (hants a ha)⟩

/-- Updating a node that is not among a justification's antecedents leaves
that justification's validity unchanged. -/
theorem is_valid_update_of_not_ant {s : CLTMS} {x : Nat} {f : Node → Node} {j : Nat}
    (hx : x ∉ antsOf s j) : is_valid (updateNode s x f) j = is_valid s j := by
  unfold is_valid antsOf at *
  rw [justs_update]
  cases hj : s.justs.get? j with
  | none => rfl
  | some J =>
    rw [hj] at hx
    simp only
    have hgen : ∀ (l : List Nat), (∀ a ∈ l, getLabel (updateNode s x f) a = getLabel s a) →
        (l.all fun a => decide (getLabel (updateNode s x f) a = Polarity.TRUE)) =
        (l.all fun a => decide (getLabel s a = Polarity.TRUE)) := by
      intro l hl
      induction l with
      | nil => rfl
      | cons b l ih =>
        simp only [List.all_cons]
        rw [hl b (by simp), ih (fun a ha => hl a (by simp [ha]))]
    exact hgen J.antecedents (fun a ha =>
      getLabel_update_other (fun hc => hx (hc ▸ ha)))

/-- supportingValid in terms of supportingOf and is_valid. -/
theorem supportingValid_eq (s : CLTMS) (n : Nat) : supportingValid s n =
    (match supportingOf s n with
     | some j => is_valid s j
     | none => false) := rfl

/-! ### Frame: what re_evaluate can and cannot change

re_evaluate rewrites labels and clears stored justifications, but never
touches the justification store, the set of nodes, any assumption set or
any consequence list. -/

/-- Frame relation for re_evaluate: justifications, node count, assumption
sets and consequence lists are untouched; a stored supporting justification
is either untouched or cleared. -/
def reFrame (s t : CLTMS) : Prop :=
  t.justs = s.justs ∧ t.nodes.length = s.nodes.length ∧
  (∀ m, assumptionsOf t m = assumptionsOf s m) ∧
  (∀ m, consequencesOf t m = consequencesOf s m) ∧
  (∀ m, supportingOf t m = supportingOf s m ∨ supportingOf t m = none)

theorem reFrame_refl (s : CLTMS) : reFrame s s :=
  ⟨rfl, rfl, fun _ => rfl, fun _ => rfl, fun _ => Or.inl rfl⟩

theorem reFrame_trans {s t u : CLTMS} (h₁ : reFrame s t) (h₂ : reFrame t u) :
    reFrame s u := by
  obtain ⟨ha, hb, hc, hd, he⟩ := h₁
  obtain ⟨ha', hb', hc', hd', he'⟩ := h₂
  refine ⟨ha'.trans ha, hb'.trans hb, fun m => (hc' m).trans (hc m),
    fun m => (hd' m).trans (hd m), fun m => ?_⟩
  rcases he' m with h | h
  · rw [h]
    exact he m
  · exact Or.inr h

theorem reFrame_update_label {s : CLTMS} {x : Nat} {f : Node → Node}
    (hfa : ∀ nd, (f nd).assumptions = nd.assumptions)
    (hfc : ∀ nd, (f nd).consequences = nd.consequences)
    (hfs : ∀ nd, (f nd).supporting_justification = nd.supporting_justification) :
    reFrame s (updateNode s x f) :=
  ⟨rfl, nodesLen_update s x f, assumptionsOf_update_keep hfa,
    consequencesOf_update_keep hfc, fun m => Or.inl (supportingOf_update_keep hfs m)⟩

theorem reFrame_update_clear {s : CLTMS} {x : Nat} {f : Node → Node}
    (hfa : ∀ nd, (f nd).assumptions = nd.assumptions)
    (hfc : ∀ nd, (f nd).consequences = nd.consequences)
    (hfs : ∀ nd, (f nd).supporting_justification = none) :
    reFrame s (updateNode s x f) := by
  refine ⟨rfl, nodesLen_update s x f, assumptionsOf_update_keep hfa,
    consequencesOf_update_keep hfc, fun m => ?_⟩
  by_cases hmx : m = x
  · subst hmx
    cases hg : getNode s m with
    | none =>
      left
      unfold supportingOf
      rw [getNode_update_self, hg]
      rfl
    | some nd =>
      right
      rw [supportingOf_update_set hfs hg]
  · exact Or.inl (supportingOf_update_other hmx)

/-- Case analysis for one unfolding of re_evaluate. -/
theorem re_evaluate_cases {fuel : Nat} {s : CLTMS} {x : Nat} {t : CLTMS}
    (h : re_evaluate (fuel + 1) s x = some t) :
    (getNode s x = none ∧ t = s) ∨
    (∃ nd, getNode s x = some nd ∧ nd.assumptions ≠ [] ∧
      t = updateNode s x (setLabelF Polarity.TRUE)) ∨
    (∃ nd, getNode s x = some nd ∧ nd.assumptions = [] ∧ supportingValid s x = true ∧
      t = updateNode s x (setLabelF Polarity.TRUE)) ∨
    (∃ nd, getNode s x = some nd ∧ nd.assumptions = [] ∧ supportingValid s x = false ∧
      nd.label ≠ Polarity.UNKNOWN ∧
      reEvalList fuel (updateNode s x setUnknownClear) nd.consequences = some t) ∨
    (∃ nd, getNode s x = some nd ∧ nd.assumptions = [] ∧ supportingValid s x = false ∧
      nd.label = Polarity.UNKNOWN ∧ t = s) := by
  simp only [re_evaluate] at h
  cases hg : getNode s x with
  | none =>
    rw [hg] at h
    cases h
    exact Or.inl ⟨rfl, rfl⟩
  | some nd =>
    rw [hg] at h
    dsimp only at h
    by_cases ha : nd.assumptions ≠ []
    · rw [if_pos ha] at h
      cases h
      exact Or.inr (Or.inl ⟨nd, rfl, ha, rfl⟩)
    · rw [if_neg ha] at h
      rw [not_not] at ha
      by_cases hb : supportingValid s x = true
      · rw [if_pos hb] at h
        cases h
        exact Or.inr (Or.inr (Or.inl ⟨nd, rfl, ha, hb, rfl⟩))
      · rw [if_neg hb] at h
        rw [Bool.not_eq_true] at hb
        by_cases hc : nd.label ≠ Polarity.UNKNOWN
        · rw [if_pos hc] at h
          exact Or.inr (Or.inr (Or.inr (Or.inl ⟨nd, rfl, ha, hb, hc, h⟩)))
        · rw [if_neg hc] at h
          rw [not_not] at hc
          cases h
          exact Or.inr (Or.inr (Or.inr (Or.inr ⟨nd, rfl, ha, hb, hc, rfl⟩)))

/-- Case analysis for one unfolding of reEvalList on a nonempty worklist. -/
theorem reEvalList_cases {fuel : Nat} {s : CLTMS} {j : Nat} {rest : List Nat} {t : CLTMS}
    (h : reEvalList (fuel + 1) s (j :: rest) = some t) :
    (s.justs.get? j = none ∧ reEvalList fuel s rest = some t) ∨
    (∃ J s', s.justs.get? j = some J ∧ re_evaluate fuel s J.consequent = some s' ∧
      reEvalList fuel s' rest = some t) := by
  simp only [reEvalList] at h
  cases hj : s.justs.get? j with
  | none =>
    rw [hj] at h
    exact Or.inl ⟨rfl, h⟩
  | some J =>
    rw [hj] at h
    dsimp only at h
    cases hre : re_evaluate fuel s J.consequent with
    | none =>
      rw [hre] at h
      cases h
    | some s' =>
      rw [hre] at h
      exact Or.inr ⟨J, s', rfl, hre, h⟩

/-- Case analysis for one unfolding of propagate. -/
theorem propagate_cases {fuel : Nat} {s : CLTMS} {x : Nat} {t : CLTMS}
    (h : propagate (fuel + 1) s x = some t) :
    (getNode s x = none ∧ t = s) ∨
    (∃ nd, getNode s x = some nd ∧ nd.label ≠ Polarity.TRUE ∧ t = s) ∨
    (∃ nd, getNode s x = some nd ∧ nd.label = Polarity.TRUE ∧
      propagateList fuel s nd.consequences = some t) := by
  simp only [propagate] at h
  cases hg : getNode s x with
  | none =>
    rw [hg] at h
    cases h
    exact Or.inl ⟨rfl, rfl⟩
  | some nd =>
    rw [hg] at h
    dsimp only at h
    by_cases hl : nd.label = Polarity.TRUE
    · rw [if_pos hl] at h
      exact Or.inr (Or.inr ⟨nd, rfl, hl, h⟩)
    · rw [if_neg hl] at h
      cases h
      exact Or.inr (Or.inl ⟨nd, rfl, hl, rfl⟩)

/-- Case analysis for one unfolding of propagateList on a nonempty list. -/
theorem propagateList_cases {fuel : Nat} {s : CLTMS} {j : Nat} {rest : List Nat}
    {t : CLTMS} (h : propagateList (fuel + 1) s (j :: rest) = some t) :
    (s.justs.get? j = none ∧ propagateList fuel s rest = some t) ∨
    (∃ J, s.justs.get? j = some J ∧
      ¬(is_valid s j = true ∧ getLabel s J.consequent ≠ Polarity.TRUE) ∧
      propagateList fuel s rest = some t) ∨
    (∃ J s₂, s.justs.get? j = some J ∧ is_valid s j = true ∧
      getLabel s J.consequent ≠ Polarity.TRUE ∧
      propagate fuel (updateNode s J.consequent (setTrueSupp j)) J.consequent = some s₂ ∧
      propagateList fuel s₂ rest = some t) := by
  simp only [propagateList] at h
  cases hj : s.justs.get? j with
  | none =>
    rw [hj] at h
    exact Or.inl ⟨rfl, h⟩
  | some J =>
    rw [hj] at h
    dsimp only at h
    by_cases hc : is_valid s j = true ∧ getLabel s J.consequent ≠ Polarity.TRUE
    · rw [if_pos hc] at h
      cases hpr : propagate fuel (updateNode s J.consequent (setTrueSupp j))
          J.consequent with
      | none =>
        rw [hpr] at h
        cases h
      | some s₂ =>
        rw [hpr] at h
        exact Or.inr (Or.inr ⟨J, s₂, rfl, hc.1, hc.2, hpr, h⟩)
    · rw [if_neg hc] at h
      exact Or.inr (Or.inl ⟨J, rfl, hc, h⟩)

/-! ### Specialized accessor lemmas for the named updaters -/

theorem assumptionsOf_setLabelF (s : CLTMS) (x : Nat) (v : Polarity) (m : Nat) :
    assumptionsOf (updateNode s x (setLabelF v)) m = assumptionsOf s m := by
  apply assumptionsOf_update_keep
  intro nd
  rfl

theorem consequencesOf_setLabelF (s : CLTMS) (x : Nat) (v : Polarity) (m : Nat) :
    consequencesOf (updateNode s x (setLabelF v)) m = consequencesOf s m := by
  apply consequencesOf_update_keep
  intro nd
  rfl

theorem supportingOf_setLabelF (s : CLTMS) (x : Nat) (v : Polarity) (m : Nat) :
    supportingOf (updateNode s x (setLabelF v)) m = supportingOf s m := by
  apply supportingOf_update_keep
  intro nd
  rfl

theorem assumptionsOf_setTrueSupp (s : CLTMS) (x j : Nat) (m : Nat) :
    assumptionsOf (updateNode s x (setTrueSupp j)) m = assumptionsOf s m := by
  apply assumptionsOf_update_keep
  intro nd
  rfl

theorem consequencesOf_setTrueSupp (s : CLTMS) (x j : Nat) (m : Nat) :
    consequencesOf (updateNode s x (setTrueSupp j)) m = consequencesOf s m := by
  apply consequencesOf_update_keep
  intro nd
  rfl

theorem assumptionsOf_setUnknownClear (s : CLTMS) (x : Nat) (m : Nat) :
    assumptionsOf (updateNode s x setUnknownClear) m = assumptionsOf s m := by
  apply assumptionsOf_update_keep
  intro nd
  rfl

theorem consequencesOf_setUnknownClear (s : CLTMS) (x : Nat) (m : Nat) :
    consequencesOf (updateNode s x setUnknownClear) m = consequencesOf s m := by
  apply consequencesOf_update_keep
  intro nd
  rfl

theorem reFrame_setLabelF (s : CLTMS) (x : Nat) (v : Polarity) :
    reFrame s (updateNode s x (setLabelF v)) := by
  apply reFrame_update_label <;> intro nd <;> rfl

theorem reFrame_setUnknownClear (s : CLTMS) (x : Nat) :
    reFrame s (updateNode s x setUnknownClear) := by
  apply reFrame_update_clear <;> intro nd <;> rfl

mutual
theorem reEval_frame : ∀ fuel s x t, re_evaluate fuel s x = some t → reFrame s t
  | 0, _, _, _ => by
    intro h
    simp [re_evaluate] at h
  | fuel + 1, s, x, t => by
    intro h
    rcases re_evaluate_cases h with ⟨_, rfl⟩ | ⟨nd, hg, _, rfl⟩ | ⟨nd, hg, _, _, rfl⟩ |
      ⟨nd, hg, _, _, _, hrest⟩ | ⟨nd, hg, _, _, _, rfl⟩
    · exact reFrame_refl _
    · exact reFrame_setLabelF _ x Polarity.TRUE
    · exact reFrame_setLabelF _ x Polarity.TRUE
    · exact reFrame_trans (reFrame_setUnknownClear _ x)
        (reEvalList_frame fuel _ nd.consequences t hrest)
    · exact reFrame_refl _
termination_by structural fuel _ _ _ => fuel

theorem reEvalList_frame : ∀ fuel s js t, reEvalList fuel s js = some t → reFrame s t
  | 0, _, _, _ => by
    intro h
    simp [reEvalList] at h
  | fuel + 1, s, [], t => by
    intro h
    cases h
    exact reFrame_refl _
  | fuel + 1, s, j :: rest, t => by
    intro h
    rcases reEvalList_cases h with ⟨_, hrest⟩ | ⟨J, s', _, hre, hrest⟩
    · exact reEvalList_frame fuel s rest t hrest
    · exact reFrame_trans (reEval_frame fuel s J.consequent s' hre)
        (reEvalList_frame fuel s' rest t hrest)
termination_by structural fuel _ _ _ => fuel
end

/-! ### Dormant nodes are stable under re_evaluate -/

/-- A node with no assumptions, no stored justification and label UNKNOWN.
re_evaluate never wakes such a node. -/
def dormant (s : CLTMS) (m : Nat) : Prop :=
  assumptionsOf s m = [] ∧ supportingOf s m = none ∧ getLabel s m = Polarity.UNKNOWN

mutual
theorem reEval_dormant : ∀ fuel s x t m, re_evaluate fuel s x = some t →
    dormant s m → dormant t m
  | 0, _, _, _, _ => by
    intro h
    simp [re_evaluate] at h
  | fuel + 1, s, x, t, m => by
    intro h hd
    obtain ⟨hd1, hd2, hd3⟩ := hd
    rcases re_evaluate_cases h with ⟨_, rfl⟩ | ⟨nd, hg, ha, rfl⟩ | ⟨nd, hg, _, hb, rfl⟩ |
      ⟨nd, hg, ha, _, hc, hrest⟩ | ⟨nd, hg, _, _, _, rfl⟩
    · exact ⟨hd1, hd2, hd3⟩
    · have hmx : m ≠ x := by
        intro hmx
        subst hmx
        apply ha
        unfold assumptionsOf at hd1
        rw [hg] at hd1
        exact hd1
      refine ⟨?_, ?_, ?_⟩
      · rw [assumptionsOf_setLabelF]
        exact hd1
      · rw [supportingOf_update_other hmx]
        exact hd2
      · rw [getLabel_update_other hmx]
        exact hd3
    · have hmx : m ≠ x := by
        intro hmx
        subst hmx
        unfold supportingValid at hb
        rw [hd2] at hb
        cases hb
      refine ⟨?_, ?_, ?_⟩
      · rw [assumptionsOf_setLabelF]
        exact hd1
      · rw [supportingOf_update_other hmx]
        exact hd2
      · rw [getLabel_update_other hmx]
        exact hd3
    · have hmx : m ≠ x := by
        intro hmx
        subst hmx
        apply hc
        unfold getLabel at hd3
        rw [hg] at hd3
        exact hd3
      refine reEvalList_dormant fuel _ nd.consequences t m hrest ⟨?_, ?_, ?_⟩
      · rw [assumptionsOf_setUnknownClear]
        exact hd1
      · rw [supportingOf_update_other hmx]
        exact hd2
      · rw [getLabel_update_other hmx]
        exact hd3
    · exact ⟨hd1, hd2, hd3⟩
termination_by structural fuel _ _ _ _ => fuel

theorem reEvalList_dormant : ∀ fuel s js t m, reEvalList fuel s js = some t →
    dormant s m → dormant t m
  | 0, _, _, _, _ => by
    intro h
    simp [reEvalList] at h
  | fuel + 1, s, [], t, m => by
    intro h hd
    cases h
    exact hd
  | fuel + 1, s, j :: rest, t, m => by
    intro h hd
    rcases reEvalList_cases h with ⟨_, hrest⟩ | ⟨J, s', _, hre, hrest⟩
    · exact reEvalList_dormant fuel s rest t m hrest hd
    · exact reEvalList_dormant fuel s' rest t m hrest
        (reEval_dormant fuel s J.consequent s' m hre hd)
termination_by structural fuel _ _ _ _ => fuel
end

/-! ### Well-formedness of the belief graph

Both invariants are established by construction in the engine: add_support
appends the new justification to every antecedent's consequence list (WF1)
and stores it on its own consequent (WF2). -/

/-- Every justification appears in the consequence list of each of its
antecedents. -/
def WF1 (s : CLTMS) : Prop :=
  ∀ j J, s.justs.get? j = some J → ∀ a ∈ J.antecedents, j ∈ consequencesOf s a

/-- A stored supporting justification always has the storing node as its
consequent. -/
def WF2 (s : CLTMS) : Prop :=
  ∀ m j, supportingOf s m = some j → ∃ J, s.justs.get? j = some J ∧ J.consequent = m

theorem WF1_frame {s t : CLTMS} (hf : reFrame s t) (h : WF1 s) : WF1 t := by
  intro j J hj a ha
  rw [hf.1] at hj
  rw [hf.2.2.2.1 a]
  exact h j J hj a ha

theorem WF2_frame {s t : CLTMS} (hf : reFrame s t) (h : WF2 s) : WF2 t := by
  intro m j hm
  rcases hf.2.2.2.2 m with he | he
  · rw [he] at hm
    obtain ⟨J, hJ, hc⟩ := h m j hm
    exact ⟨J, by rw [hf.1]; exact hJ, hc⟩
  · rw [he] at hm
    cases hm

/-! ### Unsupported nodes end up UNKNOWN -/

/-- The re-evaluation postcondition: a node with an empty assumption set and
no currently-valid stored justification carries label UNKNOWN. -/
def unsupportedUnknown (s : CLTMS) (m : Nat) : Prop :=
  assumptionsOf s m = [] → supportingValid s m = false → getLabel s m = Polarity.UNKNOWN

theorem is_valid_setLabelTrue_raise {s : CLTMS} {x j : Nat}
    (h : is_valid s j = true) :
    is_valid (updateNode s x (setLabelF Polarity.TRUE)) j = true := by
  apply is_valid_raise _ h
  intro nd
  rfl

theorem supportingValid_setLabelTrue_raise {s : CLTMS} {x m : Nat}
    (h : supportingValid s m = true) :
    supportingValid (updateNode s x (setLabelF Polarity.TRUE)) m = true := by
  unfold supportingValid at h ⊢
  rw [supportingOf_setLabelF]
  cases hs : supportingOf s m with
  | none =>
    rw [hs] at h
    cases h
  | some j =>
    rw [hs] at h
    exact is_valid_setLabelTrue_raise h

mutual
theorem reEval_unsupported : ∀ fuel s x t m, WF1 s → WF2 s →
    re_evaluate fuel s x = some t → (unsupportedUnknown s m ∨ m = x) →
    unsupportedUnknown t m
  | 0, _, _, _, _ => by
    intro _ _ h
    simp [re_evaluate] at h
  | fuel + 1, s, x, t, m => by
    intro hwf1 hwf2 h hyp
    rcases re_evaluate_cases h with ⟨hg, rfl⟩ | ⟨nd, hg, ha, rfl⟩ | ⟨nd, hg, _, hb, rfl⟩ |
      ⟨nd, hg, ha, hb, hc, hrest⟩ | ⟨nd, hg, _, _, hc, rfl⟩
    · rcases hyp with hR | rfl
      · exact hR
      · intro _ _
        unfold getLabel
        rw [hg]
    · -- branch (a): x got label TRUE because its assumption set is nonempty
      intro h1 h2
      by_cases hmx : m = x
      · subst hmx
        rw [assumptionsOf_setLabelF] at h1
        unfold assumptionsOf at h1
        rw [hg] at h1
        exact absurd h1 ha
      · rw [assumptionsOf_setLabelF] at h1
        have h2' : supportingValid s m = false := by
          by_contra hcon
          rw [Bool.not_eq_false] at hcon
          rw [supportingValid_setLabelTrue_raise hcon] at h2
          cases h2
        rcases hyp with hR | rfl
        · rw [getLabel_update_other hmx]
          exact hR h1 h2'
        · exact absurd rfl hmx
    · -- branch (b): x got label TRUE from a valid stored justification
      intro h1 h2
      by_cases hmx : m = x
      · subst hmx
        rw [supportingValid_setLabelTrue_raise hb] at h2
        cases h2
      · rw [assumptionsOf_setLabelF] at h1
        have h2' : supportingValid s m = false := by
          by_contra hcon
          rw [Bool.not_eq_false] at hcon
          rw [supportingValid_setLabelTrue_raise hcon] at h2
          cases h2
        rcases hyp with hR | rfl
        · rw [getLabel_update_other hmx]
          exact hR h1 h2'
        · exact absurd rfl hmx
    · -- branch (c): x went UNKNOWN; the cascade covers every node whose
      -- support this invalidated
      have hframe := reFrame_setUnknownClear s x
      have hux : unsupportedUnknown (updateNode s x setUnknownClear) x := by
        intro _ _
        apply getLabel_update_set _ hg
        intro nd'
        rfl
      refine reEvalList_unsupported fuel _ nd.consequences t m
        (WF1_frame hframe hwf1) (WF2_frame hframe hwf2) hrest ?_
      by_cases hmx : m = x
      · subst hmx
        exact Or.inl hux
      · rcases hyp with hR | rfl
        · by_cases hval : supportingValid (updateNode s x setUnknownClear) m = true
          · exact Or.inl (fun _ h2 => by rw [hval] at h2; cases h2)
          · rw [Bool.not_eq_true] at hval
            by_cases hass : assumptionsOf s m = []
            · by_cases hvs : supportingValid s m = true
              · -- the stored justification was valid and is no longer: x is
                -- one of its antecedents, so m is covered by the worklist
                unfold supportingValid at hvs hval
                rw [supportingOf_update_other hmx] at hval
                cases hsj : supportingOf s m with
                | none =>
                  rw [hsj] at hvs
                  cases hvs
                | some j =>
                  rw [hsj] at hvs hval
                  dsimp only at hvs hval
                  have hxant : x ∈ antsOf s j := by
                    by_contra hxa
                    rw [is_valid_update_of_not_ant hxa, hvs] at hval
                    cases hval
                  obtain ⟨J, hJ, hJc⟩ := hwf2 m j hsj
                  have hmem : j ∈ consequencesOf s x := by
                    apply hwf1 j J hJ
                    unfold antsOf at hxant
                    rw [hJ] at hxant
                    exact hxant
                  have hcons : consequencesOf s x = nd.consequences := by
                    unfold consequencesOf
                    rw [hg]
                  right
                  exact ⟨j, hcons ▸ hmem, J, by rw [justs_update]; exact hJ, hJc⟩
              · -- the stored justification was already invalid: m was
                -- already UNKNOWN and stays dormant through this update
                rw [Bool.not_eq_true] at hvs
                left
                intro _ _
                rw [getLabel_update_other hmx]
                exact hR hass hvs
            · left
              intro h1 _
              rw [assumptionsOf_setUnknownClear] at h1
              exact absurd h1 hass
        · exact absurd rfl hmx
    · rcases hyp with hR | rfl
      · exact hR
      · intro _ _
        unfold getLabel
        rw [hg]
        exact hc
termination_by structural fuel _ _ _ _ => fuel

theorem reEvalList_unsupported : ∀ fuel s js t m, WF1 s → WF2 s →
    reEvalList fuel s js = some t →
    (unsupportedUnknown s m ∨ ∃ j ∈ js, ∃ J, s.justs.get? j = some J ∧ J.consequent = m) →
    unsupportedUnknown t m
  | 0, _, _, _, _ => by
    intro _ _ h
    simp [reEvalList] at h
  | fuel + 1, s, [], t, m => by
    intro _ _ h hyp
    cases h
    rcases hyp with hR | ⟨j, hj, _⟩
    · exact hR
    · simp at hj
  | fuel + 1, s, j :: rest, t, m => by
    intro hwf1 hwf2 h hyp
    rcases reEvalList_cases h with ⟨hj, hrest⟩ | ⟨J, s', hj, hre, hrest⟩
    · refine reEvalList_unsupported fuel s rest t m hwf1 hwf2 hrest ?_
      rcases hyp with hR | ⟨j', hj'mem, J', hJ', hcons⟩
      · exact Or.inl hR
      · rcases List.mem_cons.mp hj'mem with rfl | hmem
        · rw [hj] at hJ'
          cases hJ'
        · exact Or.inr ⟨j', hmem, J', hJ', hcons⟩
    · have hframe := reEval_frame fuel s J.consequent s' hre
      have hwf1' := WF1_frame hframe hwf1
      have hwf2' := WF2_frame hframe hwf2
      rcases hyp with hR | ⟨j', hj'mem, J', hJ', hcons⟩
      · exact reEvalList_unsupported fuel s' rest t m hwf1' hwf2' hrest
          (Or.inl (reEval_unsupported fuel s J.consequent s' m hwf1 hwf2 hre (Or.inl hR)))
      · rcases List.mem_cons.mp hj'mem with rfl | hmem
        · rw [hj] at hJ'
          cases hJ'
          exact reEvalList_unsupported fuel s' rest t m hwf1' hwf2' hrest
            (Or.inl (reEval_unsupported fuel s J.consequent s' m hwf1 hwf2 hre
              (Or.inr hcons.symm)))
        · exact reEvalList_unsupported fuel s' rest t m hwf1' hwf2' hrest
            (Or.inr ⟨j', hmem, J', by rw [hframe.1]; exact hJ', hcons⟩)
termination_by structural fuel _ _ _ _ => fuel
end

/-! ### Boolean well-formedness checkers (for concrete witnesses) -/

theorem get?_some_lt {α : Type} : ∀ (l : List α) (i : Nat) (a : α),
    l.get? i = some a → i < l.length
  | [], i, a, h => by simp [List.get?] at h
  | b :: bs, 0, a, _ => Nat.succ_pos _
  | b :: bs, i + 1, a, h => by
    simp only [List.get?_cons_succ] at h
    exact Nat.succ_lt_succ (get?_some_lt bs i a h)

theorem get?_none_of_ge {α : Type} : ∀ (l : List α) (i : Nat), l.length ≤ i →
    l.get? i = none
  | [], _, _ => rfl
  | b :: bs, 0, h => by simp at h
  | b :: bs, i + 1, h => by
    simp only [List.get?_cons_succ]
    exact get?_none_of_ge bs i (by simpa using h)

/-- Executable check for WF1. -/
def WF1b (s : CLTMS) : Bool :=
  (List.range s.justs.length).all fun j =>
    match s.justs.get? j with
    | some J => J.antecedents.all fun a => decide (j ∈ consequencesOf s a)
    | none => true

/-- Executable check for WF2. -/
def WF2b (s : CLTMS) : Bool :=
  (List.range s.nodes.length).all fun m =>
    match supportingOf s m with
    | some j =>
      match s.justs.get? j with
      | some J => decide (J.consequent = m)
      | none => false
    | none => true

instance (s : CLTMS) (m : Nat) : Decidable (unsupportedUnknown s m) := by
  unfold unsupportedUnknown
  infer_instance

/-- Executable check that every stored node satisfies unsupportedUnknown. -/
def allUnsupportedB (s : CLTMS) : Bool :=
  (List.range s.nodes.length).all fun m => decide (unsupportedUnknown s m)

theorem WF1_of_b {s : CLTMS} (h : WF1b s = true) : WF1 s := by
  intro j J hj a ha
  have hlt : j < s.justs.length := get?_some_lt _ _ _ hj
  have hall := (List.all_eq_true.mp h) j (List.mem_range.mpr hlt)
  rw [hj] at hall
  dsimp only at hall
  have := (List.all_eq_true.mp hall) a ha
  exact of_decide_eq_true this

theorem WF2_of_b {s : CLTMS} (h : WF2b s = true) : WF2 s := by
  intro m j hm
  have hnd : ∃ nd, getNode s m = some nd := by
    unfold supportingOf at hm
    cases hg : getNode s m with
    | none =>
      rw [hg] at hm
      cases hm
    | some nd => exact ⟨nd, rfl⟩
  obtain ⟨nd, hnd⟩ := hnd
  have hlt : m < s.nodes.length := get?_some_lt _ _ _ hnd
  have hall := (List.all_eq_true.mp h) m (List.mem_range.mpr hlt)
  rw [hm] at hall
  dsimp only at hall
  cases hj : s.justs.get? j with
  | none =>
    rw [hj] at hall
    cases hall
  | some J =>
    rw [hj] at hall
    exact ⟨J, rfl, of_decide_eq_true hall⟩

theorem allUnsupported_of_b {s : CLTMS} (h : allUnsupportedB s = true) :
    ∀ m, unsupportedUnknown s m := by
  intro m
  by_cases hm : m < s.nodes.length
  · exact of_decide_eq_true ((List.all_eq_true.mp h) m (List.mem_range.mpr hm))
  · intro _ _
    unfold getLabel getNode
    rw [get?_none_of_ge s.nodes m (Nat.le_of_not_lt hm)]

/-! ### The assumption-removal update changes nothing but one assumption set -/

theorem consequencesOf_removeAssumF (s : CLTMS) (x : Nat) (i : Term) (m : Nat) :
    consequencesOf (updateNode s x (removeAssumF i)) m = consequencesOf s m := by
  apply consequencesOf_update_keep
  intro nd
  rfl

theorem supportingOf_removeAssumF (s : CLTMS) (x : Nat) (i : Term) (m : Nat) :
    supportingOf (updateNode s x (removeAssumF i)) m = supportingOf s m := by
  apply supportingOf_update_keep
  intro nd
  rfl

theorem getLabel_removeAssumF (s : CLTMS) (x : Nat) (i : Term) (m : Nat) :
    getLabel (updateNode s x (removeAssumF i)) m = getLabel s m := by
  apply getLabel_update_keep
  intro nd
  rfl

theorem is_valid_removeAssumF (s : CLTMS) (x : Nat) (i : Term) (j : Nat) :
    is_valid (updateNode s x (removeAssumF i)) j = is_valid s j := by
  apply is_valid_congr
  · rfl
  · intro a
    exact getLabel_removeAssumF s x i a

theorem supportingValid_removeAssumF (s : CLTMS) (x : Nat) (i : Term) (m : Nat) :
    supportingValid (updateNode s x (removeAssumF i)) m = supportingValid s m := by
  unfold supportingValid
  rw [supportingOf_removeAssumF]
  cases supportingOf s m with
  | none => rfl
  | some j => exact is_valid_removeAssumF s x i j

theorem WF1_removeAssumF {s : CLTMS} (x : Nat) (i : Term) (h : WF1 s) :
    WF1 (updateNode s x (removeAssumF i)) := by
  intro j J hj a ha
  rw [justs_update] at hj
  rw [consequencesOf_removeAssumF]
  exact h j J hj a ha

theorem WF2_removeAssumF {s : CLTMS} (x : Nat) (i : Term) (h : WF2 s) :
    WF2 (updateNode s x (removeAssumF i)) := by
  intro m j hm
  rw [supportingOf_removeAssumF] at hm
  obtain ⟨J, hJ, hc⟩ := h m j hm
  exact ⟨J, by rw [justs_update]; exact hJ, hc⟩

theorem removeInformant_single (i : Term) : removeInformant [i] i = [] := by
  simp [removeInformant]

theorem assumptionsOf_removeAssumF_self {s : CLTMS} {x : Nat} {i : Term} {nd : Node}
    (hg : getNode s x = some nd) :
    assumptionsOf (updateNode s x (removeAssumF i)) x = removeInformant nd.assumptions i := by
  unfold assumptionsOf
  rw [getNode_update_self, hg]
  rfl

/-- After re_evaluate(n) completes, node n satisfies the label/support
biconditional: its label is TRUE exactly when it has a nonempty assumption
set or a currently-valid stored justification. -/
theorem reEval_target_iff : ∀ fuel s n t, re_evaluate fuel s n = some t →
    (getLabel t n = Polarity.TRUE ↔
      (assumptionsOf t n ≠ [] ∨ supportingValid t n = true))
  | 0, s, n, t => by
    intro h
    simp [re_evaluate] at h
  | fuel + 1, s, n, t => by
    intro h
    rcases re_evaluate_cases h with ⟨hg, rfl⟩ | ⟨nd, hg, ha, rfl⟩ | ⟨nd, hg, hae, hb, rfl⟩ |
      ⟨nd, hg, hae, hb, hc, hrest⟩ | ⟨nd, hg, hae, hb, hc, rfl⟩
    · have hl : getLabel t n = Polarity.UNKNOWN := by
        unfold getLabel
        rw [hg]
      have ha : assumptionsOf t n = [] := by
        unfold assumptionsOf
        rw [hg]
      have hv : supportingValid t n = false := by
        unfold supportingValid supportingOf
        rw [hg]
      rw [hl, ha, hv]
      simp
    · have hlab : getLabel (updateNode s n (setLabelF Polarity.TRUE)) n = Polarity.TRUE := by
        apply getLabel_update_set _ hg
        intro nd'
        rfl
      have hass : assumptionsOf (updateNode s n (setLabelF Polarity.TRUE)) n
          = nd.assumptions := by
        rw [assumptionsOf_setLabelF]
        unfold assumptionsOf
        rw [hg]
      rw [hlab, hass]
      simp [ha]
    · have hlab : getLabel (updateNode s n (setLabelF Polarity.TRUE)) n = Polarity.TRUE := by
        apply getLabel_update_set _ hg
        intro nd'
        rfl
      have hv := supportingValid_setLabelTrue_raise (x := n) hb
      rw [hlab, hv]
      simp
    · have hd : dormant (updateNode s n setUnknownClear) n := by
        refine ⟨?_, ?_, ?_⟩
        · rw [assumptionsOf_setUnknownClear]
          unfold assumptionsOf
          rw [hg]
          exact hae
        · apply supportingOf_update_set _ hg
          intro nd'
          rfl
        · apply getLabel_update_set _ hg
          intro nd'
          rfl
      have hdt := reEvalList_dormant fuel _ nd.consequences t n hrest hd
      have hv : supportingValid t n = false := by
        unfold supportingValid
        rw [hdt.2.1]
      rw [hdt.2.2, hdt.1, hv]
      simp
    · have hl : getLabel t n = Polarity.UNKNOWN := by
        unfold getLabel
        rw [hg]
        exact hc
      have ha' : assumptionsOf t n = [] := by
        unfold assumptionsOf
        rw [hg]
        exact hae
      rw [hl, ha', hb]
      simp

/-! ### Claim C1 -/

/-- C1 counterexample scenario: three nodes A, B, D; A enabled TRUE; B given
a valid justification from A (B becomes TRUE); then a second justification
from the UNKNOWN node D overwrites B's stored support ("last one wins" in
add_support).  B stays TRUE with an empty assumption set and an invalid
stored justification, so the claimed biconditional fails after the
top-level add_support call. -/
def C1stateOpt : Option CLTMS :=
  let p1 := create_node emptyTMS (Term.atom "A")
  let p2 := create_node p1.1 (Term.atom "B")
  let p3 := create_node p2.1 (Term.atom "D")
  (enable_assumption 10 p3.1 0 Polarity.TRUE (Term.atom "i")).bind fun s4 =>
  (add_support 10 s4 1 [0] (Term.atom "j1")).bind fun s5 =>
  add_support 10 s5 1 [2] (Term.atom "j2")

/-- The state reached by the C1 counterexample scenario. -/
def C1state : CLTMS := C1stateOpt.getD emptyTMS

/-- C1 counterexample: after the top-level add_support call that overwrites
node B's stored justification with an invalid one, B is labelled TRUE while
having an empty assumption set and no valid stored justification — the
claimed biconditional is false for node B. -/
theorem C1_counterexample :
    C1stateOpt = some C1state ∧
    getLabel C1state 1 = Polarity.TRUE ∧
    assumptionsOf C1state 1 = [] ∧
    supportingValid C1state 1 = false ∧
    ¬(getLabel C1state 1 = Polarity.TRUE ↔
      (assumptionsOf C1state 1 ≠ [] ∨ supportingValid C1state 1 = true)) := by
  refine ⟨by decide, by decide, by decide, by decide, ?_⟩
  decide

/-- C1 amended: the biconditional "label is TRUE iff the assumption set is
nonempty or the stored supporting justification is valid" holds for the
node a re_evaluate or retract_assumption call was invoked on, in the state
that call returns; add_support can break it for other nodes by overwriting
a TRUE node's stored justification with an invalid one. -/
theorem C1_amended :
    (∀ fuel s n t, re_evaluate fuel s n = some t →
      (getLabel t n = Polarity.TRUE ↔
        (assumptionsOf t n ≠ [] ∨ supportingValid t n = true))) ∧
    (∀ fuel s n i t, retract_assumption fuel s n i = some t →
      (getLabel t n = Polarity.TRUE ↔
        (assumptionsOf t n ≠ [] ∨ supportingValid t n = true))) := by
  refine ⟨reEval_target_iff, ?_⟩
  intro fuel s n i t h
  unfold retract_assumption at h
  exact reEval_target_iff fuel _ n t h

/-- State for the C1 witness: one node with a TRUE assumption. -/
def C1wStateOpt : Option CLTMS :=
  let p1 := create_node emptyTMS (Term.atom "A")
  enable_assumption 10 p1.1 0 Polarity.TRUE (Term.atom "i")

/-- Concrete pre-state for the C1 witness. -/
def C1wState : CLTMS := C1wStateOpt.getD emptyTMS

/-- Concrete post-state for the C1 witness. -/
def C1wRes : CLTMS := (re_evaluate 10 C1wState 0).getD emptyTMS

/-- Witness for C1 amended at a concrete input. -/
theorem C1_witness :
    getLabel C1wRes 0 = Polarity.TRUE ↔
      (assumptionsOf C1wRes 0 ≠ [] ∨ supportingValid C1wRes 0 = true) :=
  C1_amended.1 10 C1wState 0 C1wRes (by decide)

/-! ### Claim C2 -/

/-- C2 amended: in a well-formed state in which every node lacking support
is already UNKNOWN, retracting the sole assumption of a node with no valid
stored justification drives that node to UNKNOWN, and in the resulting
state every node with an empty assumption set and no valid stored
justification — in particular every transitively dependent node lacking
other support — is UNKNOWN. -/
theorem C2_amended : ∀ fuel (s : CLTMS) (n : Nat) (i : Term) (t : CLTMS),
    WF1b s = true → WF2b s = true → allUnsupportedB s = true →
    assumptionsOf s n = [i] → supportingValid s n = false →
    retract_assumption fuel s n i = some t →
    getLabel t n = Polarity.UNKNOWN ∧
    (∀ m, assumptionsOf t m = [] → supportingValid t m = false →
      getLabel t m = Polarity.UNKNOWN) := by
  intro fuel s n i t hwf1b hwf2b hallb hassm hsv h
  have hwf1 := WF1_of_b hwf1b
  have hwf2 := WF2_of_b hwf2b
  have hall := allUnsupported_of_b hallb
  obtain ⟨nd, hg⟩ : ∃ nd, getNode s n = some nd := by
    cases hgo : getNode s n with
    | none =>
      exfalso
      unfold assumptionsOf at hassm
      rw [hgo] at hassm
      exact List.noConfusion hassm
    | some nd => exact ⟨nd, rfl⟩
  have hnda : nd.assumptions = [i] := by
    unfold assumptionsOf at hassm
    rw [hg] at hassm
    exact hassm
  unfold retract_assumption at h
  rw [hg] at h
  dsimp only at h
  have hg1 : getNode (updateNode s n (removeAssumF i)) n = some (removeAssumF i nd) := by
    rw [getNode_update_self, hg]
    rfl
  have has1 : assumptionsOf (updateNode s n (removeAssumF i)) n = [] := by
    rw [assumptionsOf_removeAssumF_self hg, hnda, removeInformant_single]
  have hsv1 : supportingValid (updateNode s n (removeAssumF i)) n = false := by
    rw [supportingValid_removeAssumF]
    exact hsv
  have hwf1' := WF1_removeAssumF n i hwf1
  have hwf2' := WF2_removeAssumF n i hwf2
  constructor
  · -- the retracted node itself ends UNKNOWN
    match fuel, h with
    | fuel + 1, h =>
      rcases re_evaluate_cases h with ⟨hgo, rfl⟩ | ⟨nd₁, hgo, ha₁, rfl⟩ |
        ⟨nd₁, hgo, _, hb₁, rfl⟩ | ⟨nd₁, hgo, ha₁, hb₁, hc₁, hrest⟩ |
        ⟨nd₁, hgo, _, _, hc₁, rfl⟩
      · rw [hg1] at hgo
        cases hgo
      · rw [hg1] at hgo
        cases hgo
        exfalso
        apply ha₁
        have := has1
        unfold assumptionsOf at this
        rw [hg1] at this
        exact this
      · rw [hsv1] at hb₁
        cases hb₁
      · have hd : dormant (updateNode (updateNode s n (removeAssumF i)) n
            setUnknownClear) n := by
          refine ⟨?_, ?_, ?_⟩
          · rw [assumptionsOf_setUnknownClear]
            exact has1
          · apply supportingOf_update_set _ hg1
            intro nd'
            rfl
          · apply getLabel_update_set _ hg1
            intro nd'
            rfl
        exact (reEvalList_dormant fuel _ nd₁.consequences t n hrest hd).2.2
      · unfold getLabel
        rw [hg1] at hgo
        cases hgo
        rw [hg1]
        exact hc₁
  · -- globally, unsupported nodes are UNKNOWN afterwards
    intro m h1 h2
    refine reEval_unsupported fuel _ n t m hwf1' hwf2' h ?_ h1 h2
    by_cases hmx : m = n
    · exact Or.inr hmx
    · left
      intro h1' h2'
      rw [getLabel_removeAssumF]
      apply hall m
      · rw [assumptionsOf_update_other hmx] at h1'
        exact h1'
      · rw [supportingValid_removeAssumF] at h2'
        exact h2'

/-- C2 counterexample scenario: A and B are TRUE assumptions; justification
j1 makes A an antecedent of B, j2 makes B an antecedent of C (so C is
transitively dependent on A), and j3 from the UNKNOWN node D overwrites C's
stored justification.  Retracting A's sole assumption drives A UNKNOWN, but
the cascade stops at B (still assumption-supported), so C — which has an
empty assumption set and no valid stored justification — stays TRUE. -/
def C2cexStateOpt : Option CLTMS :=
  let p1 := create_node emptyTMS (Term.atom "A")
  let p2 := create_node p1.1 (Term.atom "B")
  let p3 := create_node p2.1 (Term.atom "C")
  let p4 := create_node p3.1 (Term.atom "D")
  (enable_assumption 20 p4.1 0 Polarity.TRUE (Term.atom "ia")).bind fun s1 =>
  (enable_assumption 20 s1 1 Polarity.TRUE (Term.atom "ib")).bind fun s2 =>
  (add_support 20 s2 1 [0] (Term.atom "j1")).bind fun s3 =>
  (add_support 20 s3 2 [1] (Term.atom "j2")).bind fun s4 =>
  add_support 20 s4 2 [3] (Term.atom "j3")

/-- Pre-state of the C2 counterexample. -/
def C2cexState : CLTMS := C2cexStateOpt.getD emptyTMS

/-- Post-state of the C2 counterexample (after retracting A's assumption). -/
def C2cexRes : CLTMS := (retract_assumption 20 C2cexState 0 (Term.atom "ia")).getD emptyTMS

/-- C2 counterexample: node 0 (A) has exactly one assumption informant and
no stored justification, node 2 (C) is transitively dependent on A through
justifications 0 and 1, and after retract_assumption(A, ia) node A is
UNKNOWN but C — lacking other support in the final state: empty assumption
set, stored justification invalid — is still TRUE, not UNKNOWN. -/
theorem C2_counterexample :
    C2cexStateOpt = some C2cexState ∧
    retract_assumption 20 C2cexState 0 (Term.atom "ia") = some C2cexRes ∧
    assumptionsOf C2cexState 0 = [Term.atom "ia"] ∧
    supportingOf C2cexState 0 = none ∧
    C2cexState.justs.get? 0 = some ⟨Term.atom "j1", 1, [0]⟩ ∧
    C2cexState.justs.get? 1 = some ⟨Term.atom "j2", 2, [1]⟩ ∧
    getLabel C2cexRes 0 = Polarity.UNKNOWN ∧
    assumptionsOf C2cexRes 2 = [] ∧
    supportingValid C2cexRes 2 = false ∧
    getLabel C2cexRes 2 = Polarity.TRUE := by
  decide

/-- Pre-state for the C2 witness: the chain A → B → C where only A is an
assumption. -/
def C2wStateOpt : Option CLTMS :=
  let p1 := create_node emptyTMS (Term.atom "A")
  let p2 := create_node p1.1 (Term.atom "B")
  let p3 := create_node p2.1 (Term.atom "C")
  (enable_assumption 20 p3.1 0 Polarity.TRUE (Term.atom "ia")).bind fun s1 =>
  (add_support 20 s1 1 [0] (Term.atom "jb")).bind fun s2 =>
  add_support 20 s2 2 [1] (Term.atom "jc")

/-- Concrete pre-state for the C2 witness. -/
def C2wState : CLTMS := C2wStateOpt.getD emptyTMS

/-- Concrete post-state for the C2 witness. -/
def C2wRes : CLTMS := (retract_assumption 20 C2wState 0 (Term.atom "ia")).getD emptyTMS

/-- Witness for C2 amended: retracting the sole assumption of A drives A
UNKNOWN, and the transitively dependent node C (which ends with no support)
is UNKNOWN as well. -/
theorem C2_witness :
    getLabel C2wRes 0 = Polarity.UNKNOWN ∧ getLabel C2wRes 2 = Polarity.UNKNOWN := by
  have h := C2_amended 20 C2wState 0 (Term.atom "ia") C2wRes (by decide) (by decide)
    (by decide) (by decide) (by decide) (by decide)
  exact ⟨h.1, h.2 2 (by decide) (by decide)⟩

/-! ### Claim C10 -/

/-- Scenario for C10 and C3: node B is given a justification from A while A
is UNKNOWN; A is then enabled as a FALSE assumption; finally
retract_assumption(A, k) is called with an informant k that was never in
A's assumption set. -/
def C10stateOpt : Option CLTMS :=
  let p1 := create_node emptyTMS (Term.atom "A")
  let p2 := create_node p1.1 (Term.atom "B")
  (add_support 10 p2.1 1 [0] (Term.atom "j")).bind fun s3 =>
  enable_assumption 10 s3 0 Polarity.FALSE (Term.atom "i")

/-- Pre-state of the C10 scenario (A is a FALSE assumption). -/
def C10state : CLTMS := C10stateOpt.getD emptyTMS

/-- Post-state of the C10 scenario (after the retract call). -/
def C10res : CLTMS := (retract_assumption 10 C10state 0 (Term.atom "k")).getD emptyTMS

/-- C10: re_evaluate labels any node with a nonempty assumption set TRUE,
whatever polarity its assumptions were enabled with; concretely, node A —
enabled as a FALSE assumption — is flipped to TRUE by a retract_assumption
call naming an informant that was never in its assumption set. -/
theorem C10_assumptions_force_true :
    (∀ fuel s n t, assumptionsOf s n ≠ [] → re_evaluate fuel s n = some t →
      getLabel t n = Polarity.TRUE) ∧
    getLabel C10state 0 = Polarity.FALSE ∧
    assumptionsOf C10state 0 = [Term.atom "i"] ∧
    (Term.atom "k") ∉ assumptionsOf C10state 0 ∧
    retract_assumption 10 C10state 0 (Term.atom "k") = some C10res ∧
    getLabel C10res 0 = Polarity.TRUE := by
  refine ⟨?_, by decide, by decide, by decide, by decide, by decide⟩
  intro fuel s n t ha h
  match fuel, h with
  | fuel + 1, h =>
    rcases re_evaluate_cases h with ⟨hgo, rfl⟩ | ⟨nd, hgo, ha₁, rfl⟩ |
      ⟨nd, hgo, hae, _, rfl⟩ | ⟨nd, hgo, hae, _, _, _⟩ | ⟨nd, hgo, hae, _, _, rfl⟩
    · exfalso
      apply ha
      unfold assumptionsOf
      rw [hgo]
    · apply getLabel_update_set _ hgo
      intro nd'
      rfl
    · exfalso
      apply ha
      unfold assumptionsOf
      rw [hgo]
      exact hae
    · exfalso
      apply ha
      unfold assumptionsOf
      rw [hgo]
      exact hae
    · exfalso
      apply ha
      unfold assumptionsOf
      rw [hgo]
      exact hae

/-- Witness for the quantified part of C10 at a concrete input: the
re_evaluate call inside the concrete retract flips A to TRUE. -/
theorem C10_witness : getLabel C10res 0 = Polarity.TRUE := by
  have hstep : re_evaluate 10 (updateNode C10state 0
      (removeAssumF (Term.atom "k"))) 0 = some C10res := by decide
  exact C10_assumptions_force_true.1 10 _ 0 C10res (by decide) hstep

/-! ### Claim C3: propagation establishes "valid justifications have TRUE
consequents" -/

/-- A justification with index j, if present and valid, has a TRUE
consequent. -/
def validImpliesTrue (s : CLTMS) (j : Nat) : Prop :=
  ∀ J, s.justs.get? j = some J → is_valid s j = true →
    getLabel s J.consequent = Polarity.TRUE

/-- Node-count well-formedness: every justification's consequent is a real
node (true by construction: add_support is called on existing nodes). -/
def WF0 (s : CLTMS) : Prop :=
  ∀ j J, s.justs.get? j = some J → J.consequent < s.nodes.length

/-- Executable check for WF0. -/
def WF0b (s : CLTMS) : Bool :=
  (List.range s.justs.length).all fun j =>
    match s.justs.get? j with
    | some J => decide (J.consequent < s.nodes.length)
    | none => true

theorem WF0_of_b {s : CLTMS} (h : WF0b s = true) : WF0 s := by
  intro j J hj
  have hlt : j < s.justs.length := get?_some_lt _ _ _ hj
  have hall := (List.all_eq_true.mp h) j (List.mem_range.mpr hlt)
  rw [hj] at hall
  exact of_decide_eq_true hall

theorem get?_lt_some {α : Type} : ∀ (l : List α) (i : Nat), i < l.length →
    ∃ a, l.get? i = some a
  | [], i, h => by simp at h
  | b :: bs, 0, _ => ⟨b, rfl⟩
  | b :: bs, i + 1, h => get?_lt_some bs i (by simpa using h)

theorem antsOf_update (s : CLTMS) (x : Nat) (f : Node → Node) (j : Nat) :
    antsOf (updateNode s x f) j = antsOf s j := rfl

/-- Lighter frame shared by propagate: justifications, node count,
consequence lists and assumption sets are untouched. -/
def lightFrame (s t : CLTMS) : Prop :=
  t.justs = s.justs ∧ t.nodes.length = s.nodes.length ∧
  (∀ m, consequencesOf t m = consequencesOf s m) ∧
  (∀ m, assumptionsOf t m = assumptionsOf s m)

theorem lightFrame_refl (s : CLTMS) : lightFrame s s :=
  ⟨rfl, rfl, fun _ => rfl, fun _ => rfl⟩

theorem lightFrame_trans {s t u : CLTMS} (h₁ : lightFrame s t) (h₂ : lightFrame t u) :
    lightFrame s u :=
  ⟨h₂.1.trans h₁.1, h₂.2.1.trans h₁.2.1, fun m => (h₂.2.2.1 m).trans (h₁.2.2.1 m),
    fun m => (h₂.2.2.2 m).trans (h₁.2.2.2 m)⟩

theorem lightFrame_setTrueSupp (s : CLTMS) (x j : Nat) :
    lightFrame s (updateNode s x (setTrueSupp j)) := by
  refine ⟨rfl, nodesLen_update s x _, ?_, ?_⟩
  · intro m
    apply consequencesOf_update_keep
    intro nd
    rfl
  · intro m
    apply assumptionsOf_update_keep
    intro nd
    rfl

theorem WF0_lightFrame {s t : CLTMS} (hf : lightFrame s t) (h : WF0 s) : WF0 t := by
  intro j J hj
  rw [hf.1] at hj
  rw [hf.2.1]
  exact h j J hj

theorem WF1_lightFrame {s t : CLTMS} (hf : lightFrame s t) (h : WF1 s) : WF1 t := by
  intro j J hj a ha
  rw [hf.1] at hj
  rw [hf.2.2.1 a]
  exact h j J hj a ha

mutual
theorem prop_lightFrame : ∀ fuel s x t, propagate fuel s x = some t → lightFrame s t
  | 0, _, _, _ => by
    intro h
    simp [propagate] at h
  | fuel + 1, s, x, t => by
    intro h
    rcases propagate_cases h with ⟨_, rfl⟩ | ⟨nd, _, _, rfl⟩ | ⟨nd, hg, _, hpl⟩
    · exact lightFrame_refl _
    · exact lightFrame_refl _
    · exact propList_lightFrame fuel s nd.consequences t hpl
termination_by structural fuel _ _ _ => fuel

theorem propList_lightFrame : ∀ fuel s js t, propagateList fuel s js = some t →
    lightFrame s t
  | 0, _, _, _ => by
    intro h
    simp [propagateList] at h
  | fuel + 1, s, [], t => by
    intro h
    cases h
    exact lightFrame_refl _
  | fuel + 1, s, j :: rest, t => by
    intro h
    rcases propagateList_cases h with ⟨_, hrest⟩ | ⟨J, _, _, hrest⟩ |
      ⟨J, s₂, hj, hv, hnT, hpr, hrest⟩
    · exact propList_lightFrame fuel s rest t hrest
    · exact propList_lightFrame fuel s rest t hrest
    · exact lightFrame_trans (lightFrame_setTrueSupp s J.consequent j)
        (lightFrame_trans (prop_lightFrame fuel _ J.consequent s₂ hpr)
          (propList_lightFrame fuel s₂ rest t hrest))
termination_by structural fuel _ _ _ => fuel
end

theorem is_valid_setTrueSupp_raise {s : CLTMS} {x j j' : Nat}
    (h : is_valid s j' = true) :
    is_valid (updateNode s x (setTrueSupp j)) j' = true := by
  apply is_valid_raise _ h
  intro nd
  rfl

theorem getLabel_setTrueSupp_raise {s : CLTMS} {x j m : Nat}
    (h : getLabel s m = Polarity.TRUE) :
    getLabel (updateNode s x (setTrueSupp j)) m = Polarity.TRUE := by
  apply getLabel_raise _ h
  intro nd
  rfl

theorem WF1_update_keepCons {s : CLTMS} {x : Nat} {f : Node → Node}
    (hfc : ∀ nd, (f nd).consequences = nd.consequences) (h : WF1 s) :
    WF1 (updateNode s x f) := by
  intro j J hj a ha
  rw [justs_update] at hj
  rw [consequencesOf_update_keep hfc]
  exact h j J hj a ha

theorem WF0_update {s : CLTMS} {x : Nat} {f : Node → Node} (h : WF0 s) :
    WF0 (updateNode s x f) := by
  intro j J hj
  rw [justs_update] at hj
  rw [nodesLen_update]
  exact h j J hj

mutual
theorem prop_valid : ∀ fuel s x t j, WF0 s → WF1 s → propagate fuel s x = some t →
    (validImpliesTrue s j ∨ x ∈ antsOf s j) → validImpliesTrue t j
  | 0, _, _, _, _ => by
    intro _ _ h
    simp [propagate] at h
  | fuel + 1, s, x, t, j => by
    intro hwf0 hwf1 h hyp
    rcases propagate_cases h with ⟨hg, rfl⟩ | ⟨nd, hg, hnl, rfl⟩ | ⟨nd, hg, hl, hpl⟩
    · rcases hyp with hV | hmem
      · exact hV
      · intro J hJ hv
        exfalso
        rw [is_valid_true_iff] at hv
        obtain ⟨J', hJ', hall⟩ := hv
        rw [hJ] at hJ'
        cases hJ'
        have hx := hall x (by unfold antsOf at hmem; rw [hJ] at hmem; exact hmem)
        unfold getLabel at hx
        rw [hg] at hx
        cases hx
    · rcases hyp with hV | hmem
      · exact hV
      · intro J hJ hv
        exfalso
        rw [is_valid_true_iff] at hv
        obtain ⟨J', hJ', hall⟩ := hv
        rw [hJ] at hJ'
        cases hJ'
        have hx := hall x (by unfold antsOf at hmem; rw [hJ] at hmem; exact hmem)
        unfold getLabel at hx
        rw [hg] at hx
        exact hnl hx
    · refine propList_valid fuel s nd.consequences t j hwf0 hwf1 hpl ?_
      rcases hyp with hV | hmem
      · exact Or.inl hV
      · right
        obtain ⟨J, hJ⟩ : ∃ J, s.justs.get? j = some J := by
          unfold antsOf at hmem
          cases hj : s.justs.get? j with
          | none =>
            rw [hj] at hmem
            simp at hmem
          | some J => exact ⟨J, rfl⟩
        have := hwf1 j J hJ x (by unfold antsOf at hmem; rw [hJ] at hmem; exact hmem)
        unfold consequencesOf at this
        rw [hg] at this
        exact this
termination_by structural fuel _ _ _ _ => fuel

theorem propList_valid : ∀ fuel s js t j, WF0 s → WF1 s →
    propagateList fuel s js = some t →
    (validImpliesTrue s j ∨ j ∈ js) → validImpliesTrue t j
  | 0, _, _, _, _ => by
    intro _ _ h
    simp [propagateList] at h
  | fuel + 1, s, [], t, j => by
    intro _ _ h hyp
    cases h
    rcases hyp with hV | hmem
    · exact hV
    · simp at hmem
  | fuel + 1, s, j' :: rest, t, j => by
    intro hwf0 hwf1 h hyp
    rcases propagateList_cases h with ⟨hj', hrest⟩ | ⟨J, hj', hcond, hrest⟩ |
      ⟨J, s₂, hj', hv, hnT, hpr, hrest⟩
    · refine propList_valid fuel s rest t j hwf0 hwf1 hrest ?_
      rcases hyp with hV | hmem
      · exact Or.inl hV
      · rcases List.mem_cons.mp hmem with rfl | hmem'
        · left
          intro J hJ _
          rw [hj'] at hJ
          cases hJ
        · exact Or.inr hmem'
    · refine propList_valid fuel s rest t j hwf0 hwf1 hrest ?_
      rcases hyp with hV | hmem
      · exact Or.inl hV
      · rcases List.mem_cons.mp hmem with rfl | hmem'
        · left
          intro J' hJ' hv'
          rw [hj'] at hJ'
          cases hJ'
          rcases Decidable.not_and_iff_or_not.mp hcond with hnv | hT
          · exact absurd hv' hnv
          · exact Decidable.not_not.mp hT
        · exact Or.inr hmem'
    · -- the firing step: J.consequent is set TRUE with this support and
      -- propagated
      have hclt : J.consequent < s.nodes.length := hwf0 j' J hj'
      obtain ⟨ndc, hndc⟩ := get?_lt_some s.nodes J.consequent hclt
      have hgc : getNode s J.consequent = some ndc := hndc
      have hlab₁ : getLabel (updateNode s J.consequent (setTrueSupp j')) J.consequent
          = Polarity.TRUE := by
        apply getLabel_update_set _ hgc
        intro nd'
        rfl
      have hwf0₁ : WF0 (updateNode s J.consequent (setTrueSupp j')) := WF0_update hwf0
      have hwf1₁ : WF1 (updateNode s J.consequent (setTrueSupp j')) := by
        apply WF1_update_keepCons _ hwf1
        intro nd'
        rfl
      have hframe₂ := prop_lightFrame fuel _ J.consequent s₂ hpr
      have hwf0₂ : WF0 s₂ := WF0_lightFrame hframe₂ hwf0₁
      have hwf1₂ : WF1 s₂ := WF1_lightFrame hframe₂ hwf1₁
      rcases hyp with hV | hmem
      · refine propList_valid fuel s₂ rest t j hwf0₂ hwf1₂ hrest (Or.inl ?_)
        by_cases hcj : J.consequent ∈ antsOf s j
        · exact prop_valid fuel _ J.consequent s₂ j hwf0₁ hwf1₁ hpr (Or.inr hcj)
        · refine prop_valid fuel _ J.consequent s₂ j hwf0₁ hwf1₁ hpr (Or.inl ?_)
          intro J' hJ' hv'
          rw [justs_update] at hJ'
          rw [is_valid_update_of_not_ant hcj] at hv'
          exact getLabel_setTrueSupp_raise (hV J' hJ' hv')
      · rcases List.mem_cons.mp hmem with rfl | hmem'
        · refine propList_valid fuel s₂ rest t j hwf0₂ hwf1₂ hrest (Or.inl ?_)
          refine prop_valid fuel _ J.consequent s₂ j hwf0₁ hwf1₁ hpr (Or.inl ?_)
          intro J' hJ' _
          rw [justs_update, hj'] at hJ'
          cases hJ'
          exact hlab₁
        · exact propList_valid fuel s₂ rest t j hwf0₂ hwf1₂ hrest (Or.inr hmem')
termination_by structural fuel _ _ _ _ => fuel
end

/-! ### linkAll lemmas -/

theorem linkAll_justs : ∀ (l : List Nat) (st : CLTMS) (j : Nat),
    (linkAll j st l).justs = st.justs
  | [], _, _ => rfl
  | a :: rest, st, j => by
    rw [linkAll, linkAll_justs rest _ j, justs_update]

theorem linkAll_nodesLen : ∀ (l : List Nat) (st : CLTMS) (j : Nat),
    (linkAll j st l).nodes.length = st.nodes.length
  | [], _, _ => rfl
  | a :: rest, st, j => by
    rw [linkAll, linkAll_nodesLen rest _ j, nodesLen_update]

theorem linkAll_getLabel : ∀ (l : List Nat) (st : CLTMS) (j m : Nat),
    getLabel (linkAll j st l) m = getLabel st m
  | [], _, _, _ => rfl
  | a :: rest, st, j, m => by
    rw [linkAll, linkAll_getLabel rest _ j m]
    apply getLabel_update_keep
    intro nd
    rfl

theorem linkAll_assumptionsOf : ∀ (l : List Nat) (st : CLTMS) (j m : Nat),
    assumptionsOf (linkAll j st l) m = assumptionsOf st m
  | [], _, _, _ => rfl
  | a :: rest, st, j, m => by
    rw [linkAll, linkAll_assumptionsOf rest _ j m]
    apply assumptionsOf_update_keep
    intro nd
    rfl

theorem linkAll_supportingOf : ∀ (l : List Nat) (st : CLTMS) (j m : Nat),
    supportingOf (linkAll j st l) m = supportingOf st m
  | [], _, _, _ => rfl
  | a :: rest, st, j, m => by
    rw [linkAll, linkAll_supportingOf rest _ j m]
    apply supportingOf_update_keep
    intro nd
    rfl

theorem consequencesOf_pushCons_mem {st : CLTMS} {a j' : Nat} (j : Nat) {m : Nat}
    (h : j' ∈ consequencesOf st m) :
    j' ∈ consequencesOf (updateNode st a (pushConsF j)) m := by
  by_cases hma : m = a
  · subst hma
    unfold consequencesOf at h ⊢
    rw [getNode_update_self]
    cases hg : getNode st m with
    | none =>
      rw [hg] at h
      simp at h
    | some nd =>
      rw [hg] at h
      simp only [Option.map_some']
      exact List.mem_append.mpr (Or.inl h)
  · unfold consequencesOf at h ⊢
    rw [getNode_update_other st a _ hma]
    exact h

theorem linkAll_consequences_mem : ∀ (l : List Nat) (st : CLTMS) (j j' m : Nat),
    j' ∈ consequencesOf st m → j' ∈ consequencesOf (linkAll j st l) m
  | [], _, _, _, _ => fun h => h
  | _ :: rest, _, j, j', m => fun h =>
    linkAll_consequences_mem rest _ j j' m (consequencesOf_pushCons_mem j h)

theorem consequencesOf_pushCons_self {st : CLTMS} {a : Nat} (j : Nat) {nd : Node}
    (hg : getNode st a = some nd) :
    consequencesOf (updateNode st a (pushConsF j)) a = nd.consequences ++ [j] := by
  unfold consequencesOf
  rw [getNode_update_self, hg]
  rfl

theorem linkAll_mem_self : ∀ (l : List Nat) (st : CLTMS) (j a : Nat), a ∈ l →
    a < st.nodes.length → j ∈ consequencesOf (linkAll j st l) a
  | [], _, _, _, ha, _ => by simp at ha
  | b :: rest, st, j, a, ha, hlt => by
    rcases List.mem_cons.mp ha with rfl | hmem
    · obtain ⟨nd, hnd⟩ := get?_lt_some st.nodes a hlt
      rw [linkAll]
      apply linkAll_consequences_mem
      rw [consequencesOf_pushCons_self j hnd]
      exact List.mem_append.mpr (Or.inr (by simp))
    · rw [linkAll]
      exact linkAll_mem_self rest _ j a hmem (by rw [nodesLen_update]; exact hlt)

/-- Pointwise label agreement gives equal validity checks on a list. -/
theorem all_label_congr {s t : CLTMS} (hl : ∀ a, getLabel t a = getLabel s a) :
    ∀ (l : List Nat),
    (l.all fun a => decide (getLabel t a = Polarity.TRUE)) =
    (l.all fun a => decide (getLabel s a = Polarity.TRUE))
  | [] => rfl
  | b :: l => by
    simp only [List.all_cons]
    rw [hl b, all_label_congr hl l]

/-! ### Executable check that all valid justifications have TRUE consequents -/

/-- Executable check of validImpliesTrue at one index. -/
def validImpliesTrueB (s : CLTMS) (j : Nat) : Bool :=
  match s.justs.get? j with
  | some J => !(is_valid s j) || decide (getLabel s J.consequent = Polarity.TRUE)
  | none => true

/-- Executable check of validImpliesTrue at every index. -/
def allValidTrueB (s : CLTMS) : Bool :=
  (List.range s.justs.length).all (validImpliesTrueB s)

theorem allValidTrue_of_b {s : CLTMS} (h : allValidTrueB s = true) :
    ∀ j, validImpliesTrue s j := by
  intro j J hJ hv
  have hlt : j < s.justs.length := get?_some_lt _ _ _ hJ
  have hall := (List.all_eq_true.mp h) j (List.mem_range.mpr hlt)
  unfold validImpliesTrueB at hall
  rw [hJ] at hall
  dsimp only at hall
  rw [hv] at hall
  simpa using hall

/-! ### Case analysis for enable_assumption -/

theorem enable_assumption_cases {fuel : Nat} {s : CLTMS} {n : Nat} {v : Polarity}
    {i : Term} {t : CLTMS} (h : enable_assumption fuel s n v i = some t) :
    (getNode s n = none ∧ t = s) ∨
    (∃ nd, getNode s n = some nd ∧ i ∈ nd.assumptions ∧ nd.label = v ∧ t = s) ∨
    (∃ nd, getNode s n = some nd ∧ ¬(i ∈ nd.assumptions ∧ nd.label = v) ∧
      nd.label = v ∧ t = updateNode s n (addAssumF i)) ∨
    (∃ nd, getNode s n = some nd ∧ ¬(i ∈ nd.assumptions ∧ nd.label = v) ∧
      nd.label ≠ v ∧
      propagate fuel (updateNode (updateNode s n (addAssumF i)) n (setLabelF v)) n
        = some t) := by
  unfold enable_assumption at h
  cases hg : getNode s n with
  | none =>
    rw [hg] at h
    cases h
    exact Or.inl ⟨rfl, rfl⟩
  | some nd =>
    rw [hg] at h
    dsimp only at h
    by_cases h1 : i ∈ nd.assumptions ∧ nd.label = v
    · rw [if_pos h1] at h
      cases h
      exact Or.inr (Or.inl ⟨nd, rfl, h1.1, h1.2, rfl⟩)
    · rw [if_neg h1] at h
      by_cases h2 : nd.label ≠ v
      · rw [if_pos h2] at h
        exact Or.inr (Or.inr (Or.inr ⟨nd, rfl, h1, h2, h⟩))
      · rw [if_neg h2] at h
        rw [not_not] at h2
        cases h
        exact Or.inr (Or.inr (Or.inl ⟨nd, rfl, h1, h2, rfl⟩))

theorem getLabel_addAssumF (s : CLTMS) (x : Nat) (i : Term) (m : Nat) :
    getLabel (updateNode s x (addAssumF i)) m = getLabel s m := by
  apply getLabel_update_keep
  intro nd
  rfl

theorem is_valid_addAssumF (s : CLTMS) (x : Nat) (i : Term) (j : Nat) :
    is_valid (updateNode s x (addAssumF i)) j = is_valid s j := by
  apply is_valid_congr
  · rfl
  · intro a
    exact getLabel_addAssumF s x i a

/-! ### add_support: the pre-check state and its properties -/

/-- The state add_support builds before its validity check: justification
appended, stored on the consequent, linked into every antecedent's
consequence list. -/
def addSupState (s : CLTMS) (c : Nat) (ants : List Nat) (i : Term) : CLTMS :=
  linkAll s.justs.length
    (updateNode ⟨s.nodes, s.justs ++ [⟨i, c, ants⟩]⟩ c (setSuppF s.justs.length)) ants

theorem add_support_cases {fuel : Nat} {s : CLTMS} {c : Nat} {ants : List Nat}
    {i : Term} {t : CLTMS} (h : add_support fuel s c ants i = some t) :
    (is_valid (addSupState s c ants i) s.justs.length = false ∧
      t = addSupState s c ants i) ∨
    (is_valid (addSupState s c ants i) s.justs.length = true ∧
      getLabel (addSupState s c ants i) c = Polarity.TRUE ∧
      t = addSupState s c ants i) ∨
    (is_valid (addSupState s c ants i) s.justs.length = true ∧
      getLabel (addSupState s c ants i) c ≠ Polarity.TRUE ∧
      propagate fuel (updateNode (addSupState s c ants i) c
        (setTrueSupp s.justs.length)) c = some t) := by
  have h' : (if is_valid (addSupState s c ants i) s.justs.length = true then
      (if getLabel (addSupState s c ants i) c ≠ Polarity.TRUE then
        propagate fuel (updateNode (addSupState s c ants i) c
          (setTrueSupp s.justs.length)) c
      else some (addSupState s c ants i))
    else some (addSupState s c ants i)) = some t := h
  by_cases hv : is_valid (addSupState s c ants i) s.justs.length = true
  · rw [if_pos hv] at h'
    by_cases hT : getLabel (addSupState s c ants i) c ≠ Polarity.TRUE
    · rw [if_pos hT] at h'
      exact Or.inr (Or.inr ⟨hv, hT, h'⟩)
    · rw [if_neg hT] at h'
      rw [not_not] at hT
      cases h'
      exact Or.inr (Or.inl ⟨hv, hT, rfl⟩)
  · rw [if_neg hv] at h'
    rw [Bool.not_eq_true] at hv
    cases h'
    exact Or.inl ⟨hv, rfl⟩

theorem addSupState_justs (s : CLTMS) (c : Nat) (ants : List Nat) (i : Term) :
    (addSupState s c ants i).justs = s.justs ++ [⟨i, c, ants⟩] := by
  unfold addSupState
  rw [linkAll_justs, justs_update]

theorem addSupState_nodesLen (s : CLTMS) (c : Nat) (ants : List Nat) (i : Term) :
    (addSupState s c ants i).nodes.length = s.nodes.length := by
  unfold addSupState
  rw [linkAll_nodesLen, nodesLen_update]

theorem addSupState_getLabel (s : CLTMS) (c : Nat) (ants : List Nat) (i : Term)
    (m : Nat) : getLabel (addSupState s c ants i) m = getLabel s m := by
  unfold addSupState
  rw [linkAll_getLabel]
  have h1 : getLabel (updateNode (⟨s.nodes, s.justs ++ [⟨i, c, ants⟩]⟩ : CLTMS) c
      (setSuppF s.justs.length)) m
      = getLabel (⟨s.nodes, s.justs ++ [⟨i, c, ants⟩]⟩ : CLTMS) m := by
    apply getLabel_update_keep
    intro nd
    rfl
  rw [h1]
  rfl

theorem addSupState_get_old {s : CLTMS} {c : Nat} {ants : List Nat} {i : Term}
    {j : Nat} (hj : j < s.justs.length) :
    (addSupState s c ants i).justs.get? j = s.justs.get? j := by
  rw [addSupState_justs]
  exact get_append_left _ _ _ hj

theorem addSupState_get_new (s : CLTMS) (c : Nat) (ants : List Nat) (i : Term) :
    (addSupState s c ants i).justs.get? s.justs.length
      = some ⟨i, c, ants⟩ := by
  rw [addSupState_justs]
  exact get_append_length _ _

theorem addSupState_get_beyond {s : CLTMS} {c : Nat} {ants : List Nat} {i : Term}
    {j : Nat} (hj : s.justs.length < j) :
    (addSupState s c ants i).justs.get? j = none := by
  rw [addSupState_justs]
  apply get?_none_of_ge
  simp only [List.length_append, List.length_cons, List.length_nil]
  omega

theorem addSupState_is_valid_old {s : CLTMS} {c : Nat} {ants : List Nat} {i : Term}
    {j : Nat} (hj : j < s.justs.length) :
    is_valid (addSupState s c ants i) j = is_valid s j := by
  unfold is_valid
  rw [addSupState_get_old hj]
  cases s.justs.get? j with
  | none => rfl
  | some J =>
    exact all_label_congr (addSupState_getLabel s c ants i) J.antecedents

theorem addSupState_WF0 {s : CLTMS} {c : Nat} {ants : List Nat} {i : Term}
    (h : WF0 s) (hc : c < s.nodes.length) : WF0 (addSupState s c ants i) := by
  intro j J hJ
  rw [addSupState_nodesLen]
  rcases Nat.lt_trichotomy j s.justs.length with hlt | rfl | hgt
  · rw [addSupState_get_old hlt] at hJ
    exact h j J hJ
  · rw [addSupState_get_new] at hJ
    cases hJ
    exact hc
  · rw [addSupState_get_beyond hgt] at hJ
    cases hJ

theorem addSupState_consequences_mem {s : CLTMS} {c : Nat} {ants : List Nat}
    {i : Term} {j m : Nat} (h : j ∈ consequencesOf s m) :
    j ∈ consequencesOf (addSupState s c ants i) m := by
  unfold addSupState
  apply linkAll_consequences_mem
  have h1 : consequencesOf (updateNode (⟨s.nodes, s.justs ++ [⟨i, c, ants⟩]⟩ : CLTMS) c
      (setSuppF s.justs.length)) m
      = consequencesOf (⟨s.nodes, s.justs ++ [⟨i, c, ants⟩]⟩ : CLTMS) m := by
    apply consequencesOf_update_keep
    intro nd
    rfl
  rw [h1]
  exact h

theorem addSupState_WF1 {s : CLTMS} {c : Nat} {ants : List Nat} {i : Term}
    (h : WF1 s) (hants : ∀ a ∈ ants, a < s.nodes.length) :
    WF1 (addSupState s c ants i) := by
  intro j J hJ a ha
  rcases Nat.lt_trichotomy j s.justs.length with hlt | rfl | hgt
  · rw [addSupState_get_old hlt] at hJ
    exact addSupState_consequences_mem (h j J hJ a ha)
  · rw [addSupState_get_new] at hJ
    cases hJ
    unfold addSupState
    apply linkAll_mem_self _ _ _ a ha
    rw [nodesLen_update]
    exact hants a ha
  · rw [addSupState_get_beyond hgt] at hJ
    cases hJ

theorem addSupState_valid_old {s : CLTMS} {c : Nat} {ants : List Nat} {i : Term}
    (hall : ∀ j, validImpliesTrue s j) {j : Nat} (hj : j < s.justs.length) :
    validImpliesTrue (addSupState s c ants i) j := by
  intro J hJ hv
  rw [addSupState_get_old hj] at hJ
  rw [addSupState_is_valid_old hj] at hv
  rw [addSupState_getLabel]
  exact hall j J hJ hv

/-- C3 amended: propagation soundness holds for the forward-moving
operations.  From a well-formed state in which every valid justification
already has a TRUE consequent, enable_assumption with polarity TRUE,
add_support (on real nodes), and propagate all re-establish that property
for every justification; re_evaluate and retract_assumption can break it by
setting an assumption-backed node TRUE without propagating. -/
theorem C3_amended :
    (∀ fuel s n t, WF0b s = true → WF1b s = true → allValidTrueB s = true →
      propagate fuel s n = some t → ∀ j, validImpliesTrue t j) ∧
    (∀ fuel s n i t, WF0b s = true → WF1b s = true → allValidTrueB s = true →
      enable_assumption fuel s n Polarity.TRUE i = some t →
      ∀ j, validImpliesTrue t j) ∧
    (∀ fuel s c ants i t, WF0b s = true → WF1b s = true → allValidTrueB s = true →
      c < s.nodes.length → (∀ a ∈ ants, a < s.nodes.length) →
      add_support fuel s c ants i = some t → ∀ j, validImpliesTrue t j) := by
  have hprop : ∀ fuel s n t, WF0 s → WF1 s → (∀ j, validImpliesTrue s j) →
      propagate fuel s n = some t → ∀ j, validImpliesTrue t j := by
    intro fuel s n t hwf0 hwf1 hall h j
    exact prop_valid fuel s n t j hwf0 hwf1 h (Or.inl (hall j))
  refine ⟨?_, ?_, ?_⟩
  · intro fuel s n t h0 h1 hv h
    exact hprop fuel s n t (WF0_of_b h0) (WF1_of_b h1) (allValidTrue_of_b hv) h
  · -- enable_assumption with polarity TRUE
    intro fuel s n i t h0 h1 hv h
    have hwf0 := WF0_of_b h0
    have hwf1 := WF1_of_b h1
    have hall := allValidTrue_of_b hv
    rcases enable_assumption_cases h with ⟨_, rfl⟩ | ⟨nd, _, _, _, rfl⟩ |
      ⟨nd, hg, _, _, rfl⟩ | ⟨nd, hg, _, hne, hpr⟩
    · exact hall
    · exact hall
    · -- only the assumption set changed
      intro j J hJ hv'
      rw [justs_update] at hJ
      rw [is_valid_addAssumF] at hv'
      rw [getLabel_addAssumF]
      exact hall j J hJ hv'
    · -- the label flipped to TRUE and was propagated
      intro j
      have hwf0₂ : WF0 (updateNode (updateNode s n (addAssumF i)) n
          (setLabelF Polarity.TRUE)) := WF0_update (WF0_update hwf0)
      have hwf1₂ : WF1 (updateNode (updateNode s n (addAssumF i)) n
          (setLabelF Polarity.TRUE)) := by
        apply WF1_update_keepCons
        · intro nd'
          rfl
        · apply WF1_update_keepCons
          · intro nd'
            rfl
          · exact hwf1
      refine prop_valid fuel _ n t j hwf0₂ hwf1₂ hpr ?_
      by_cases hnj : n ∈ antsOf s j
      · exact Or.inr hnj
      · left
        intro J hJ hv'
        rw [justs_update, justs_update] at hJ
        have hnj' : n ∉ antsOf (updateNode s n (addAssumF i)) j := by
          rw [antsOf_update]
          exact hnj
        rw [is_valid_update_of_not_ant hnj'] at hv'
        rw [is_valid_addAssumF] at hv'
        have hT := hall j J hJ hv'
        apply getLabel_raise
        · intro nd'
          rfl
        · rw [getLabel_addAssumF]
          exact hT
  · -- add_support
    intro fuel s c ants i t h0 h1 hv hc hants h
    have hwf0 := WF0_of_b h0
    have hwf1 := WF1_of_b h1
    have hall := allValidTrue_of_b hv
    have hwf0' : WF0 (addSupState s c ants i) := addSupState_WF0 hwf0 hc
    have hwf1' : WF1 (addSupState s c ants i) := addSupState_WF1 hwf1 hants
    have hold : ∀ j J, (addSupState s c ants i).justs.get? j = some J →
        j ≠ s.justs.length →
        is_valid (addSupState s c ants i) j = true →
        getLabel (addSupState s c ants i) J.consequent = Polarity.TRUE := by
      intro j J hJ hne hv'
      rcases Nat.lt_trichotomy j s.justs.length with hlt | rfl | hgt
      · exact addSupState_valid_old hall hlt J hJ hv'
      · exact absurd rfl hne
      · rw [addSupState_get_beyond hgt] at hJ
        cases hJ
    rcases add_support_cases h with ⟨hnv, rfl⟩ | ⟨hval, hT, rfl⟩ | ⟨hval, hT, hpr⟩
    · -- the new justification is invalid: nothing fires
      intro j J hJ hv'
      by_cases hne : j = s.justs.length
      · subst hne
        rw [hv'] at hnv
        cases hnv
      · exact hold j J hJ hne hv'
    · -- the new justification is valid but the consequent was already TRUE
      intro j J hJ hv'
      by_cases hne : j = s.justs.length
      · subst hne
        rw [addSupState_get_new] at hJ
        cases hJ
        exact hT
      · exact hold j J hJ hne hv'
    · -- the new justification fires: consequent set TRUE and propagated
      intro j
      have hwf0₄ : WF0 (updateNode (addSupState s c ants i) c
          (setTrueSupp s.justs.length)) := WF0_update hwf0'
      have hwf1₄ : WF1 (updateNode (addSupState s c ants i) c
          (setTrueSupp s.justs.length)) := by
        apply WF1_update_keepCons
        · intro nd'
          rfl
        · exact hwf1'
      have hclt : c < (addSupState s c ants i).nodes.length := by
        rw [addSupState_nodesLen]
        exact hc
      obtain ⟨ndc, hndc⟩ := get?_lt_some (addSupState s c ants i).nodes c hclt
      refine prop_valid fuel _ c t j hwf0₄ hwf1₄ hpr ?_
      by_cases hcj : c ∈ antsOf (addSupState s c ants i) j
      · exact Or.inr hcj
      · left
        intro J hJ hv'
        rw [justs_update] at hJ
        rw [is_valid_update_of_not_ant hcj] at hv'
        by_cases hne : j = s.justs.length
        · subst hne
          rw [addSupState_get_new] at hJ
          cases hJ
          apply getLabel_update_set _ hndc
          intro nd'
          rfl
        · apply getLabel_raise
          · intro nd'
            rfl
          · exact hold j J hJ hne hv'

/-- C3 counterexample: in the state where B's stored justification has A as
its only antecedent, A was enabled as a FALSE assumption and then
retract_assumption(A, k) was called: re_evaluate sets A TRUE (assumption
set nonempty) without propagating, so after the top-level call settles,
justification 0 has all antecedents TRUE while its consequent B is
UNKNOWN. -/
theorem C3_counterexample :
    C10stateOpt = some C10state ∧
    retract_assumption 10 C10state 0 (Term.atom "k") = some C10res ∧
    C10res.justs.get? 0 = some ⟨Term.atom "j", 1, [0]⟩ ∧
    is_valid C10res 0 = true ∧
    getLabel C10res 1 = Polarity.UNKNOWN := by
  decide

/-- Scenario for the C3 witness: A is a TRUE assumption and add_support
gives B the justification ⟨jb, 1, [0]⟩, which fires. -/
def C3wStateOpt : Option CLTMS :=
  let p1 := create_node emptyTMS (Term.atom "A")
  let p2 := create_node p1.1 (Term.atom "B")
  enable_assumption 10 p2.1 0 Polarity.TRUE (Term.atom "i")

/-- Concrete pre-state for the C3 witness. -/
def C3wState : CLTMS := C3wStateOpt.getD emptyTMS

/-- Concrete post-state for the C3 witness. -/
def C3wRes : CLTMS := (add_support 10 C3wState 1 [0] (Term.atom "jb")).getD emptyTMS

/-- Witness for C3 amended at a concrete input: after add_support links B
to the TRUE assumption A, the new justification is valid and B is TRUE. -/
theorem C3_witness : getLabel C3wRes 1 = Polarity.TRUE := by
  have h := C3_amended.2.2 10 C3wState 1 [0] (Term.atom "jb") C3wRes (by decide)
    (by decide) (by decide) (by decide) (by decide) (by decide)
  exact h 0 ⟨Term.atom "jb", 1, [0]⟩ (by decide) (by decide)

/-! ## The LTRE rule engine (cltre.py)

The dbclass registry keys entries by Python `str(form)`; `termStr` models
that rendering for the embedded term grammar (atoms whose strings contain
no quote or escape characters, which covers every form the engine's driver
uses).  Rule bodies — arbitrary Python callbacks closing over the engine —
are modelled as functions from the binding environment and triggering node
to a list of engine commands (assert_fact / retract), the operations the
shipped driver's rule bodies perform. -/

/-- The single-quote character, written by code point to keep the source
free of quote literals. -/
def quoteChar : Char := Char.ofNat 39

/-- Single-quote string. -/
def quoteStr : String := String.singleton quoteChar

mutual
/-- Python repr for the embedded term grammar: strings in single quotes,
tuples in parentheses (with a trailing comma when of length one), lists in
brackets, elements separated by comma-space. -/
def termRepr : Term → String
  | .atom s => quoteStr ++ s ++ quoteStr
  | .tup es => "(" ++ termReprList es ++ (if es.length = 1 then ",)" else ")")
  | .lst es => "[" ++ termReprList es ++ "]"
termination_by structural t => t

/-- Comma-space separated reprs of a term list. -/
def termReprList : List Term → String
  | [] => ""
  | [e] => termRepr e
  | e :: e' :: es => termRepr e ++ ", " ++ termReprList (e' :: es)
termination_by structural es => es
end

/-- Python str(form): a string renders as itself, sequences render via
repr. -/
def termStr : Term → String
  | .atom s => s
  | .tup es => termRepr (.tup es)
  | .lst es => termRepr (.lst es)

/-- A dbclass: the fact form and its backing TMS node (cltre.py's DbClass;
the `facts` field is dead code — nothing in the engine ever touches it —
and is omitted, as is the never-constructed Fact class). -/
structure DbClass where
  form : Term
  datum : Nat
deriving DecidableEq

/-- One engine command a rule body can issue: assert a fact (with optional
dependencies; an empty list is Python's falsy None/[] and means an
assumption) or retract one. -/
inductive Cmd where
  | assertFact (fact : Term) (just : Term) (deps : List Term)
  | retractFact (fact : Term) (reason : Term)

/-- A rule body: given the bindings and the triggering node, the commands
the callback performs on the engine. -/
def RuleBody : Type := Env → Nat → List Cmd

/-- A rule (cltre.py's Rule dataclass). -/
structure Rule where
  id : Nat
  trigger : String × Term
  body : RuleBody
  name : Option String

/-- The engine state (cltre.py's LTRE; title/debugging omitted).  The
dbclass dict is an insertion-ordered association list keyed by str(form). -/
structure LTRE where
  tms : CLTMS
  dbclasses : List (String × DbClass)
  rules : List Rule
  queue : List (Rule × Env × Nat)
  rule_counter : Nat

/-- Lookup in the dbclass registry (dict semantics: first match, and a key
is only ever inserted once). -/
def dbLookup : List (String × DbClass) → String → Option DbClass
  | [], _ => none
  | (k, v) :: rest, s => if k = s then some v else dbLookup rest s

/-- get_dbclass from cltre.py: look the form up by its string rendering,
creating the dbclass (and its backing node via create_node) on first
reference. -/
def get_dbclass (s : LTRE) (form : Term) : LTRE × DbClass :=
  let key := termStr form
  match dbLookup s.dbclasses key with
  | some dbc => (s, dbc)
  | none =>
    let p := create_node s.tms form
    let dbc : DbClass := ⟨form, p.2⟩
    ({ s with tms := p.1, dbclasses := s.dbclasses ++ [(key, dbc)] }, dbc)

/-- check_condition from cltre.py: TRUE tests is_true, FALSE tests
is_false, anything else never matches. -/
def check_condition (s : LTRE) (cond : String) (node : Nat) : Bool :=
  if cond = "TRUE" then is_true s.tms node
  else if cond = "FALSE" then is_false s.tms node
  else false

/-- enqueue from cltre.py: append a pending firing. -/
def enqueue (s : LTRE) (rule : Rule) (env : Env) (node : Nat) : LTRE :=
  { s with queue := s.queue ++ [(rule, env, node)] }

/-- try_match_rule_dbclass from cltre.py: unify the trigger pattern with
the dbclass form; on success, check the condition against the backing node
and enqueue.  `none` only when unification ran out of fuel. -/
def try_match_rule_dbclass (fuel : Nat) (s : LTRE) (rule : Rule) (dbc : DbClass) :
    Option LTRE :=
  match unify fuel rule.trigger.2 dbc.form [] with
  | none => none
  | some none => some s
  | some (some env) =>
    if check_condition s rule.trigger.1 dbc.datum then some (enqueue s rule env dbc.datum)
    else some s

/-- The `for dbc in self.dbclasses.values()` loop of add_rule. -/
def tryMatchAll (fuel : Nat) (rule : Rule) : LTRE → List (String × DbClass) → Option LTRE
  | s, [] => some s
  | s, (_, dbc) :: rest =>
    match try_match_rule_dbclass fuel s rule dbc with
    | none => none
    | some s' => tryMatchAll fuel rule s' rest

/-- add_rule from cltre.py: register the rule, then immediately try to
match it against every existing dbclass. -/
def add_rule (fuel : Nat) (s : LTRE) (trigger : String × Term) (body : RuleBody)
    (name : Option String) : Option LTRE :=
  let rc := s.rule_counter + 1
  let rule : Rule := ⟨rc, trigger, body, name⟩
  let s₁ := { s with rule_counter := rc, rules := s.rules ++ [rule] }
  tryMatchAll fuel rule s₁ s₁.dbclasses

/-- The `for rule in self.rules` loop of propagate_fact. -/
def ruleMatchAll (fuel : Nat) (dbc : DbClass) : LTRE → List Rule → Option LTRE
  | s, [] => some s
  | s, rule :: rest =>
    match try_match_rule_dbclass fuel s rule dbc with
    | none => none
    | some s' => ruleMatchAll fuel dbc s' rest

/-- propagate_fact from cltre.py: re-match every rule against this fact. -/
def propagate_fact (fuel : Nat) (s : LTRE) (dbc : DbClass) : Option LTRE :=
  ruleMatchAll fuel dbc s s.rules

/-- The dependency-resolution comprehension of assert_fact: thread the
engine through get_dbclass for each dependency form. -/
def resolveDeps : LTRE → List Term → LTRE × List Nat
  | s, [] => (s, [])
  | s, d :: rest =>
    let p := get_dbclass s d
    let q := resolveDeps p.1 rest
    (q.1, p.2.datum :: q.2)

/-- assert_fact from cltre.py: resolve the fact's dbclass; with
dependencies call add_support (derived fact), otherwise enable a TRUE
assumption; finally, if the node is TRUE, re-match the rules against it. -/
def assert_fact (fuel : Nat) (s : LTRE) (fact just : Term) (deps : List Term) :
    Option LTRE :=
  let p := get_dbclass s fact
  let node := p.2.datum
  let step : Option LTRE :=
    if deps ≠ [] then
      let q := resolveDeps p.1 deps
      (add_support fuel q.1.tms node q.2 just).map (fun tms' => { q.1 with tms := tms' })
    else
      (enable_assumption fuel p.1.tms node Polarity.TRUE just).map
        (fun tms' => { p.1 with tms := tms' })
  match step with
  | none => none
  | some s₃ => if is_true s₃.tms node then propagate_fact fuel s₃ p.2 else some s₃

/-- retract from cltre.py: resolve the dbclass and retract the assumption. -/
def retract (fuel : Nat) (s : LTRE) (fact reason : Term) : Option LTRE :=
  let p := get_dbclass s fact
  (retract_assumption fuel p.1.tms p.2.datum reason).map (fun tms' => { p.1 with tms := tms' })

/-- Run one engine command. -/
def runCmd (fuel : Nat) (s : LTRE) : Cmd → Option LTRE
  | .assertFact f j d => assert_fact fuel s f j d
  | .retractFact f r => retract fuel s f r

/-- Run a rule body's commands in order. -/
def runCmds (fuel : Nat) : LTRE → List Cmd → Option LTRE
  | s, [] => some s
  | s, c :: cs =>
    match runCmd fuel s c with
    | none => none
    | some s' => runCmds fuel s' cs

/-- run_rules from cltre.py: pop the front entry, invoke its body with its
bindings and node, repeat until the queue is empty.  Fueled: bodies can
enqueue forever, and Python would then never return. -/
def run_rules : Nat → LTRE → Option LTRE
  | 0, _ => none
  | fuel + 1, s =>
    match s.queue with
    | [] => some s
    | (rule, env, node) :: rest =>
      match runCmds fuel { s with queue := rest } (rule.body env node) with
      | none => none
      | some s' => run_rules fuel s'

/-- run_rules instrumented with the invocation trace: the (rule id,
bindings, node) of each body invocation, in execution order. -/
def runRulesTrace : Nat → LTRE → Option (LTRE × List (Nat × Env × Nat))
  | 0, _ => none
  | fuel + 1, s =>
    match s.queue with
    | [] => some (s, [])
    | (rule, env, node) :: rest =>
      match runCmds fuel { s with queue := rest } (rule.body env node) with
      | none => none
      | some s' =>
        match runRulesTrace fuel s' with
        | none => none
        | some (t, tr) => some (t, (rule.id, env, node) :: tr)

/-- The identifying key of a queue entry: rule id, bindings, node. -/
def entryKey : Rule × Env × Nat → Nat × Env × Nat :=
  fun e => (e.1.id, e.2.1, e.2.2)

/-- A freshly constructed engine. -/
def emptyLTRE : LTRE := ⟨emptyTMS, [], [], [], 0⟩

/-! ### Engine operations only append to the work queue -/

theorem try_match_pres {fuel : Nat} {s : LTRE} {rule : Rule} {dbc : DbClass} {t : LTRE}
    (h : try_match_rule_dbclass fuel s rule dbc = some t) :
    (∃ Δ, t.queue = s.queue ++ Δ) ∧ t.tms = s.tms ∧ t.dbclasses = s.dbclasses ∧
    t.rules = s.rules ∧ t.rule_counter = s.rule_counter := by
  unfold try_match_rule_dbclass at h
  cases hu : unify fuel rule.trigger.2 dbc.form [] with
  | none =>
    rw [hu] at h
    cases h
  | some o =>
    rw [hu] at h
    cases o with
    | none =>
      cases h
      exact ⟨⟨[], by simp⟩, rfl, rfl, rfl, rfl⟩
    | some env =>
      dsimp only at h
      by_cases hc : check_condition s rule.trigger.1 dbc.datum = true
      · rw [if_pos hc] at h
        cases h
        exact ⟨⟨[(rule, env, dbc.datum)], rfl⟩, rfl, rfl, rfl, rfl⟩
      · rw [if_neg hc] at h
        cases h
        exact ⟨⟨[], by simp⟩, rfl, rfl, rfl, rfl⟩

theorem check_condition_congr {s t : LTRE} (h : t.tms = s.tms) (cond : String)
    (node : Nat) : check_condition t cond node = check_condition s cond node := by
  unfold check_condition is_true is_false
  rw [h]

theorem tryMatchAll_pres : ∀ (dbcs : List (String × DbClass)) {fuel : Nat} {rule : Rule}
    {s t : LTRE}, tryMatchAll fuel rule s dbcs = some t →
    (∃ Δ, t.queue = s.queue ++ Δ) ∧ t.tms = s.tms ∧ t.dbclasses = s.dbclasses ∧
    t.rules = s.rules ∧ t.rule_counter = s.rule_counter
  | [], _, _, s, t => by
    intro h
    cases h
    exact ⟨⟨[], by simp⟩, rfl, rfl, rfl, rfl⟩
  | (k, dbc) :: rest, fuel, rule, s, t => by
    intro h
    simp only [tryMatchAll] at h
    cases hm : try_match_rule_dbclass fuel s rule dbc with
    | none =>
      rw [hm] at h
      cases h
    | some s' =>
      rw [hm] at h
      obtain ⟨⟨Δ₁, hq₁⟩, h₁⟩ := try_match_pres hm
      obtain ⟨⟨Δ₂, hq₂⟩, h₂⟩ := tryMatchAll_pres rest h
      exact ⟨⟨Δ₁ ++ Δ₂, by rw [hq₂, hq₁, List.append_assoc]⟩,
        h₂.1.trans h₁.1, h₂.2.1.trans h₁.2.1, h₂.2.2.1.trans h₁.2.2.1,
        h₂.2.2.2.trans h₁.2.2.2⟩

theorem ruleMatchAll_pres : ∀ (rules : List Rule) {fuel : Nat} {dbc : DbClass}
    {s t : LTRE}, ruleMatchAll fuel dbc s rules = some t →
    (∃ Δ, t.queue = s.queue ++ Δ) ∧ t.tms = s.tms ∧ t.dbclasses = s.dbclasses ∧
    t.rules = s.rules ∧ t.rule_counter = s.rule_counter
  | [], _, _, s, t => by
    intro h
    cases h
    exact ⟨⟨[], by simp⟩, rfl, rfl, rfl, rfl⟩
  | rule :: rest, fuel, dbc, s, t => by
    intro h
    simp only [ruleMatchAll] at h
    cases hm : try_match_rule_dbclass fuel s rule dbc with
    | none =>
      rw [hm] at h
      cases h
    | some s' =>
      rw [hm] at h
      obtain ⟨⟨Δ₁, hq₁⟩, h₁⟩ := try_match_pres hm
      obtain ⟨⟨Δ₂, hq₂⟩, h₂⟩ := ruleMatchAll_pres rest h
      exact ⟨⟨Δ₁ ++ Δ₂, by rw [hq₂, hq₁, List.append_assoc]⟩,
        h₂.1.trans h₁.1, h₂.2.1.trans h₁.2.1, h₂.2.2.1.trans h₁.2.2.1,
        h₂.2.2.2.trans h₁.2.2.2⟩

theorem get_dbclass_queue (s : LTRE) (f : Term) :
    (get_dbclass s f).1.queue = s.queue ∧ (get_dbclass s f).1.rules = s.rules := by
  unfold get_dbclass
  dsimp only
  cases dbLookup s.dbclasses (termStr f) with
  | none => exact ⟨rfl, rfl⟩
  | some dbc => exact ⟨rfl, rfl⟩

theorem resolveDeps_queue : ∀ (deps : List Term) (s : LTRE),
    (resolveDeps s deps).1.queue = s.queue
  | [], s => rfl
  | d :: rest, s => by
    rw [resolveDeps]
    rw [resolveDeps_queue rest]
    exact (get_dbclass_queue s d).1

theorem assert_fact_queue {fuel : Nat} {s : LTRE} {f j : Term} {deps : List Term}
    {t : LTRE} (h : assert_fact fuel s f j deps = some t) :
    ∃ Δ, t.queue = s.queue ++ Δ := by
  have h' : (match (if deps ≠ [] then
      (add_support fuel (resolveDeps (get_dbclass s f).1 deps).1.tms
        (get_dbclass s f).2.datum (resolveDeps (get_dbclass s f).1 deps).2 j).map
        (fun tms' => { (resolveDeps (get_dbclass s f).1 deps).1 with tms := tms' })
    else
      (enable_assumption fuel (get_dbclass s f).1.tms (get_dbclass s f).2.datum
        Polarity.TRUE j).map (fun tms' => { (get_dbclass s f).1 with tms := tms' })) with
    | none => (none : Option LTRE)
    | some s₃ =>
      if is_true s₃.tms (get_dbclass s f).2.datum then
        propagate_fact fuel s₃ (get_dbclass s f).2
      else some s₃) = some t := h
  clear h
  set STEP := (if deps ≠ [] then
      (add_support fuel (resolveDeps (get_dbclass s f).1 deps).1.tms
        (get_dbclass s f).2.datum (resolveDeps (get_dbclass s f).1 deps).2 j).map
        (fun tms' => { (resolveDeps (get_dbclass s f).1 deps).1 with tms := tms' })
    else
      (enable_assumption fuel (get_dbclass s f).1.tms (get_dbclass s f).2.datum
        Polarity.TRUE j).map (fun tms' => { (get_dbclass s f).1 with tms := tms' }))
    with hSTEP
  cases hst : STEP with
  | none =>
    rw [hst] at h'
    cases h'
  | some s₃ =>
    rw [hst] at h'
    dsimp only at h'
    have hq3 : s₃.queue = s.queue := by
      rw [hSTEP] at hst
      by_cases hd : deps ≠ []
      · rw [if_pos hd] at hst
        simp only [Option.map_eq_some'] at hst
        obtain ⟨tms', _, rfl⟩ := hst
        show (resolveDeps (get_dbclass s f).1 deps).1.queue = s.queue
        rw [resolveDeps_queue]
        exact (get_dbclass_queue s f).1
      · rw [if_neg hd] at hst
        simp only [Option.map_eq_some'] at hst
        obtain ⟨tms', _, rfl⟩ := hst
        exact (get_dbclass_queue s f).1
    by_cases ht : is_true s₃.tms (get_dbclass s f).2.datum = true
    · rw [if_pos ht] at h'
      unfold propagate_fact at h'
      obtain ⟨⟨Δ, hq⟩, _⟩ := ruleMatchAll_pres s₃.rules h'
      exact ⟨Δ, by rw [hq, hq3]⟩
    · rw [if_neg ht] at h'
      cases h'
      exact ⟨[], by rw [hq3]; simp⟩

theorem retract_queue {fuel : Nat} {s : LTRE} {f r : Term} {t : LTRE}
    (h : retract fuel s f r = some t) : t.queue = s.queue := by
  unfold retract at h
  simp only [Option.map_eq_some'] at h
  obtain ⟨tms', _, rfl⟩ := h
  exact (get_dbclass_queue s f).1

theorem runCmds_queue : ∀ (cmds : List Cmd) {fuel : Nat} {s t : LTRE},
    runCmds fuel s cmds = some t → ∃ Δ, t.queue = s.queue ++ Δ
  | [], _, s, t => by
    intro h
    cases h
    exact ⟨[], by simp⟩
  | c :: cs, fuel, s, t => by
    intro h
    simp only [runCmds] at h
    cases hc : runCmd fuel s c with
    | none =>
      rw [hc] at h
      cases h
    | some s' =>
      rw [hc] at h
      obtain ⟨Δ₂, hq₂⟩ := runCmds_queue cs h
      have hq₁ : ∃ Δ, s'.queue = s.queue ++ Δ := by
        cases c with
        | assertFact f j d => exact assert_fact_queue hc
        | retractFact f r => exact ⟨[], by rw [retract_queue hc]; simp⟩
      obtain ⟨Δ₁, hq₁⟩ := hq₁
      exact ⟨Δ₁ ++ Δ₂, by rw [hq₂, hq₁, List.append_assoc]⟩

/-! ### Claim C7: run_rules drains the queue in FIFO order -/

/-- run_rules is the state component of the instrumented runRulesTrace. -/
theorem run_rules_eq_trace : ∀ fuel s,
    run_rules fuel s = (runRulesTrace fuel s).map Prod.fst
  | 0, _ => rfl
  | fuel + 1, s => by
    simp only [run_rules, runRulesTrace]
    cases s.queue with
    | nil => rfl
    | cons e rest =>
      obtain ⟨rule, env, node⟩ := e
      dsimp only
      cases runCmds fuel { s with queue := rest } (rule.body env node) with
      | none => rfl
      | some s' =>
        dsimp only
        rw [run_rules_eq_trace fuel s']
        cases runRulesTrace fuel s' with
        | none => rfl
        | some p => rfl

theorem runRulesTrace_spec : ∀ fuel s t tr, runRulesTrace fuel s = some (t, tr) →
    t.queue = [] ∧ ∃ tr', tr = s.queue.map entryKey ++ tr'
  | 0, _, _, _ => by
    intro h
    simp [runRulesTrace] at h
  | fuel + 1, s, t, tr => by
    intro h
    simp only [runRulesTrace] at h
    cases hq : s.queue with
    | nil =>
      rw [hq] at h
      cases h
      exact ⟨hq, [], rfl⟩
    | cons e rest =>
      rw [hq] at h
      obtain ⟨rule, env, node⟩ := e
      dsimp only at h
      cases hc : runCmds fuel { s with queue := rest } (rule.body env node) with
      | none =>
        rw [hc] at h
        cases h
      | some s' =>
        rw [hc] at h
        dsimp only at h
        cases htr : runRulesTrace fuel s' with
        | none =>
          rw [htr] at h
          cases h
        | some p =>
          obtain ⟨t', tr₁⟩ := p
          rw [htr] at h
          dsimp only at h
          cases h
          obtain ⟨hempty, tr'', htr₁⟩ := runRulesTrace_spec fuel s' t tr₁ htr
          obtain ⟨Δ, hΔ⟩ := runCmds_queue (rule.body env node) hc
          refine ⟨hempty, Δ.map entryKey ++ tr'', ?_⟩
          rw [htr₁, hΔ]
          show (rule.id, env, node) :: (rest ++ Δ).map entryKey ++ tr''
            = ((rule, env, node) :: rest).map entryKey ++ (Δ.map entryKey ++ tr'')
          rw [List.map_append, List.map_cons]
          simp [List.append_assoc, entryKey]

/-- Rule body asserting the fact (q) — the follow-on trigger for the C7
cascade scenario. -/
def c7body1 : RuleBody :=
  fun _ _ => [Cmd.assertFact (Term.tup [Term.atom "q"]) (Term.atom "r1") []]

/-- Rule body doing nothing. -/
def c7body2 : RuleBody := fun _ _ => []

/-- C7 scenario: rule 1 fires on (p) and asserts (q); rule 2 fires on (q);
asserting (p) enqueues rule 1. -/
def c7setupOpt : Option LTRE :=
  (add_rule 30 emptyLTRE ("TRUE", Term.tup [Term.atom "p"]) c7body1 none).bind fun s1 =>
  (add_rule 30 s1 ("TRUE", Term.tup [Term.atom "q"]) c7body2 none).bind fun s2 =>
  assert_fact 30 s2 (Term.tup [Term.atom "p"]) (Term.atom "user") []

/-- C7: run_rules pops strictly from the front of the queue, so the
invocation trace starts with the initial queue entries in order (each
invoked exactly once with its recorded bindings and node), entries enqueued
by bodies during the pass are processed before returning, and the function
returns only when the queue is empty.  Concretely, rule 1's assertion of
(q) enqueues rule 2, which is processed in the same draining pass. -/
theorem C7_run_rules_fifo :
    (∀ fuel s t tr, runRulesTrace fuel s = some (t, tr) →
      t.queue = [] ∧ ∃ tr', tr = s.queue.map entryKey ++ tr') ∧
    (∀ fuel s, run_rules fuel s = (runRulesTrace fuel s).map Prod.fst) ∧
    (c7setupOpt.map fun s => s.queue.map entryKey) = some [(1, [], 0)] ∧
    (c7setupOpt.bind (runRulesTrace 30)).map (fun p => (p.1.queue.length, p.2))
      = some ((0 : Nat), ([(1, [], 0), (2, [], 1)] : List (Nat × Env × Nat))) :=
  ⟨runRulesTrace_spec, run_rules_eq_trace, by decide, rfl⟩

/-- Witness for C7's quantified conjuncts at the concrete cascade: applying
the drainage theorem to the concrete engine state shows its final queue is
empty and its trace extends the initial queue. -/
theorem C7_witness :
    ((c7setupOpt.bind (runRulesTrace 30)).map (fun p => p.1.queue)) = some [] ∧
    run_rules 30 (c7setupOpt.getD emptyLTRE)
      = (runRulesTrace 30 (c7setupOpt.getD emptyLTRE)).map Prod.fst := by
  constructor
  · have h := C7_run_rules_fifo.1 30 (c7setupOpt.getD emptyLTRE)
      ((c7setupOpt.bind (runRulesTrace 30)).getD (emptyLTRE, [])).1
      ((c7setupOpt.bind (runRulesTrace 30)).getD (emptyLTRE, [])).2 rfl
    rw [show (c7setupOpt.bind (runRulesTrace 30)).map (fun p => p.1.queue)
      = some ((c7setupOpt.bind (runRulesTrace 30)).getD (emptyLTRE, [])).1.queue from rfl]
    rw [h.1]
  · exact C7_run_rules_fifo.2.1 30 (c7setupOpt.getD emptyLTRE)

/-! ### Claim C8: add_rule retroactively matches existing facts -/

theorem tryMatchAll_mem : ∀ (dbcs : List (String × DbClass)) {fuel : Nat} {rule : Rule}
    {s t : LTRE}, tryMatchAll fuel rule s dbcs = some t →
    ∀ k dbc, (k, dbc) ∈ dbcs →
    ∀ env, unify fuel rule.trigger.2 dbc.form [] = some (some env) →
    check_condition s rule.trigger.1 dbc.datum = true →
    (rule.id, env, dbc.datum) ∈ t.queue.map entryKey
  | [], _, _, s, t => by
    intro _ k dbc hmem
    simp at hmem
  | (k₀, dbc₀) :: rest, fuel, rule, s, t => by
    intro h k dbc hmem env hu hc
    simp only [tryMatchAll] at h
    cases hm : try_match_rule_dbclass fuel s rule dbc₀ with
    | none =>
      rw [hm] at h
      cases h
    | some s' =>
      rw [hm] at h
      rcases List.mem_cons.mp hmem with heq | hmem'
      · -- this dbclass is matched right now and the entry is enqueued
        cases heq
        unfold try_match_rule_dbclass at hm
        rw [hu] at hm
        dsimp only at hm
        rw [if_pos hc] at hm
        cases hm
        have hment : (rule.id, env, dbc₀.datum) ∈ (enqueue s rule env dbc₀.datum).queue.map
            entryKey := by
          unfold enqueue
          simp [entryKey]
        obtain ⟨⟨Δ, hΔ⟩, _⟩ := tryMatchAll_pres rest h
        rw [hΔ, List.map_append]
        exact List.mem_append.mpr (Or.inl hment)
      · -- covered later in the fold; the condition is stable because the
        -- TMS state never changes during matching
        have htms : s'.tms = s.tms := (try_match_pres hm).2.1
        refine tryMatchAll_mem rest h k dbc hmem' env hu ?_
        rw [check_condition_congr htms]
        exact hc

/-- C8: add_rule registers the rule (appended to the rule list with the
next counter value) and immediately matches it against every existing
dbclass: each pre-existing dbclass whose form unifies with the trigger
pattern and whose backing node satisfies the trigger condition gets an
entry for the new rule enqueued. -/
theorem C8_add_rule_retroactive : ∀ fuel (s : LTRE) (trigger : String × Term)
    (body : RuleBody) (name : Option String) (t : LTRE),
    add_rule fuel s trigger body name = some t →
    t.rules = s.rules ++ [⟨s.rule_counter + 1, trigger, body, name⟩] ∧
    ∀ k dbc, (k, dbc) ∈ s.dbclasses →
      ∀ env, unify fuel trigger.2 dbc.form [] = some (some env) →
      check_condition s trigger.1 dbc.datum = true →
      (s.rule_counter + 1, env, dbc.datum) ∈ t.queue.map entryKey := by
  intro fuel s trigger body name t h
  have h' : tryMatchAll fuel ⟨s.rule_counter + 1, trigger, body, name⟩
      { s with
        rule_counter := s.rule_counter + 1,
        rules := s.rules ++ [⟨s.rule_counter + 1, trigger, body, name⟩] }
      s.dbclasses = some t := h
  constructor
  · have := (tryMatchAll_pres s.dbclasses h').2.2.2.1
    rw [this]
  · intro k dbc hmem env hu hc
    exact tryMatchAll_mem s.dbclasses h' k dbc hmem env hu hc

/-- The C8 witness scenario: the fact (p) is asserted as a TRUE assumption
before any rule exists; the rule is added afterwards. -/
def c8stateOpt : Option LTRE :=
  assert_fact 30 emptyLTRE (Term.tup [Term.atom "p"]) (Term.atom "user") []

/-- Concrete engine state with one pre-existing TRUE fact. -/
def c8state : LTRE := c8stateOpt.getD emptyLTRE

/-- Concrete state after retroactively adding a rule on the existing fact. -/
def c8after : LTRE :=
  (add_rule 30 c8state ("TRUE", Term.tup [Term.atom "?x"]) c7body2 none).getD emptyLTRE

/-- Witness for C8 at a concrete input: the rule added after the fact (p)
already exists gets an entry enqueued for (p)'s dbclass. -/
theorem C8_witness :
    (1, [("?x", Term.atom "p")], 0) ∈ c8after.queue.map entryKey := by
  have h := C8_add_rule_retroactive 30 c8state ("TRUE", Term.tup [Term.atom "?x"])
    c7body2 none c8after rfl
  exact h.2 (termStr (Term.tup [Term.atom "p"])) ⟨Term.tup [Term.atom "p"], 0⟩
    (by decide) [("?x", Term.atom "p")] (by decide) (by decide)

/-! ### Claim C9: unknown trigger conditions never match and never raise -/

theorem tryMatchAll_id : ∀ (dbcs : List (String × DbClass)) {fuel : Nat} {rule : Rule}
    {s t : LTRE},
    (∀ (s' : LTRE) (dbc : DbClass) (t' : LTRE),
      try_match_rule_dbclass fuel s' rule dbc = some t' → t' = s') →
    tryMatchAll fuel rule s dbcs = some t → t = s
  | [], _, _, s, t => by
    intro _ h
    cases h
    rfl
  | (k₀, dbc₀) :: rest, fuel, rule, s, t => by
    intro hid h
    simp only [tryMatchAll] at h
    cases hm : try_match_rule_dbclass fuel s rule dbc₀ with
    | none =>
      rw [hm] at h
      cases h
    | some s' =>
      rw [hm] at h
      rw [tryMatchAll_id rest hid h]
      exact hid s dbc₀ s' hm

/-- C9: a trigger condition other than TRUE and FALSE is a plain negative:
check_condition returns false, try_match_rule_dbclass returns the engine
state unchanged (no entry enqueued, no error), and add_rule with such a
condition registers the rule but leaves the queue untouched. -/
theorem C9_unknown_condition : ∀ cond : String, cond ≠ "TRUE" → cond ≠ "FALSE" →
    (∀ (s : LTRE) (node : Nat), check_condition s cond node = false) ∧
    (∀ fuel (s : LTRE) (rule : Rule) (dbc : DbClass) (t : LTRE),
      rule.trigger.1 = cond → try_match_rule_dbclass fuel s rule dbc = some t → t = s) ∧
    (∀ fuel (s : LTRE) (pat : Term) (body : RuleBody) (name : Option String) (t : LTRE),
      add_rule fuel s (cond, pat) body name = some t → t.queue = s.queue) := by
  intro cond hT hF
  have hcc : ∀ (s : LTRE) (node : Nat), check_condition s cond node = false := by
    intro s node
    unfold check_condition
    rw [if_neg hT, if_neg hF]
  have htm : ∀ fuel (s : LTRE) (rule : Rule) (dbc : DbClass) (t : LTRE),
      rule.trigger.1 = cond → try_match_rule_dbclass fuel s rule dbc = some t → t = s := by
    intro fuel s rule dbc t hcond h
    unfold try_match_rule_dbclass at h
    cases hu : unify fuel rule.trigger.2 dbc.form [] with
    | none =>
      rw [hu] at h
      cases h
    | some o =>
      rw [hu] at h
      cases o with
      | none =>
        cases h
        rfl
      | some env =>
        dsimp only at h
        rw [hcond, hcc s dbc.datum] at h
        simp only [Bool.false_eq_true, if_false] at h
        cases h
        rfl
  refine ⟨hcc, htm, ?_⟩
  intro fuel s pat body name t h
  have h' : tryMatchAll fuel ⟨s.rule_counter + 1, (cond, pat), body, name⟩
      { s with
        rule_counter := s.rule_counter + 1,
        rules := s.rules ++ [⟨s.rule_counter + 1, (cond, pat), body, name⟩] }
      s.dbclasses = some t := h
  rw [tryMatchAll_id s.dbclasses (fun s' dbc t' => htm fuel s' _ dbc t' rfl) h']

/-- Witness for C9 at a concrete input: the condition MAYBE never matches;
adding a rule with it to an engine that already has a TRUE fact enqueues
nothing. -/
theorem C9_witness :
    check_condition c8state "MAYBE" 0 = false ∧
    ((add_rule 30 c8state ("MAYBE", Term.tup [Term.atom "?x"]) c7body2 none).getD
      emptyLTRE).queue = c8state.queue := by
  have h := C9_unknown_condition "MAYBE" (by decide) (by decide)
  exact ⟨h.1 c8state 0, h.2.2 30 c8state (Term.tup [Term.atom "?x"]) c7body2 none _ rfl⟩

/-! ### Claim C5: node identity per fact form -/

theorem findNode_spec : ∀ (l : List Node) (d : Term) (k i : Nat),
    findNode l d k = some i →
    ∃ nd, l.get? (i - k) = some nd ∧ nd.datum = d ∧ k ≤ i
  | [], _, _, _, h => by cases h
  | nd :: rest, d, k, i, h => by
    by_cases hd : nd.datum = d
    · rw [findNode, if_pos hd] at h
      cases h
      exact ⟨nd, by simp, hd, Nat.le_refl _⟩
    · rw [findNode, if_neg hd] at h
      obtain ⟨nd', hg, hdat, hk⟩ := findNode_spec rest d (k + 1) i h
      refine ⟨nd', ?_, hdat, Nat.le_of_succ_le hk⟩
      have harith : i - k = (i - (k + 1)) + 1 := by omega
      rw [harith]
      simpa using hg

theorem findNode_append : ∀ (l l' : List Node) (d : Term) (k : Nat),
    findNode l d k = none →
    findNode (l ++ l') d k = findNode l' d (k + l.length)
  | [], l', d, k, _ => rfl
  | nd :: rest, l', d, k, h => by
    by_cases hd : nd.datum = d
    · rw [findNode, if_pos hd] at h
      cases h
    · rw [findNode, if_neg hd] at h
      have harith : k + (nd :: rest).length = k + 1 + rest.length := by
        simp only [List.length_cons]
        omega
      rw [List.cons_append, findNode, if_neg hd, harith]
      exact findNode_append rest l' d (k + 1) h

theorem create_node_datum : ∀ (s : CLTMS) (d : Term) (s₁ : CLTMS) (i : Nat),
    create_node s d = (s₁, i) → ∃ nd, s₁.nodes.get? i = some nd ∧ nd.datum = d := by
  intro s d s₁ i h
  unfold create_node at h
  cases hf : findNode s.nodes d 0 with
  | some j =>
    rw [hf] at h
    dsimp only at h
    injection h with hs hi
    obtain ⟨nd, hg, hdat, _⟩ := findNode_spec s.nodes d 0 j hf
    rw [← hs, ← hi]
    exact ⟨nd, hg, hdat⟩
  | none =>
    rw [hf] at h
    dsimp only at h
    injection h with hs hi
    rw [← hs, ← hi]
    exact ⟨⟨d, Polarity.UNKNOWN, none, [], []⟩, get_append_length s.nodes _, rfl⟩

theorem create_node_get_pres : ∀ (s : CLTMS) (d : Term) (s₁ : CLTMS) (i : Nat),
    create_node s d = (s₁, i) →
    ∀ j nd, s.nodes.get? j = some nd → s₁.nodes.get? j = some nd := by
  intro s d s₁ i h j nd hg
  unfold create_node at h
  cases hf : findNode s.nodes d 0 with
  | some m =>
    rw [hf] at h
    dsimp only at h
    injection h with hs _
    rw [← hs]
    exact hg
  | none =>
    rw [hf] at h
    dsimp only at h
    injection h with hs _
    rw [← hs]
    dsimp only
    rw [get_append_left _ _ j (get?_some_lt s.nodes j nd hg)]
    exact hg

theorem create_node_idem : ∀ (s : CLTMS) (d : Term) (s₁ : CLTMS) (i : Nat),
    create_node s d = (s₁, i) → create_node s₁ d = (s₁, i) := by
  intro s d s₁ i h
  unfold create_node at h
  cases hf : findNode s.nodes d 0 with
  | some m =>
    rw [hf] at h
    dsimp only at h
    injection h with hs hi
    rw [← hs, ← hi]
    unfold create_node
    rw [hf]
  | none =>
    rw [hf] at h
    dsimp only at h
    injection h with hs hi
    rw [← hs, ← hi]
    unfold create_node
    dsimp only
    rw [findNode_append s.nodes [⟨d, Polarity.UNKNOWN, none, [], []⟩] d 0 hf]
    rw [findNode, if_pos rfl, Nat.zero_add]

theorem dbLookup_append_self : ∀ (l : List (String × DbClass)) (k : String)
    (dbc : DbClass), dbLookup l k = none → dbLookup (l ++ [(k, dbc)]) k = some dbc
  | [], k, dbc, _ => by simp [dbLookup]
  | (k₀, v₀) :: rest, k, dbc, h => by
    by_cases hk : k₀ = k
    · rw [dbLookup, if_pos hk] at h
      cases h
    · rw [dbLookup, if_neg hk] at h
      rw [List.cons_append, dbLookup, if_neg hk]
      exact dbLookup_append_self rest k dbc h

/-- C5 (amended): create_node deduplicates by structural equality of the
datum — a second call on the returned state yields the same index for an
equal datum and a distinct index for a distinct datum — while get_dbclass
deduplicates by the str(form) key: any form with the same string rendering
as an already-registered form resolves to that form's dbclass (and node). -/
theorem C5_amended :
    (∀ (s s₁ s₂ : CLTMS) (d₁ d₂ : Term) (i₁ i₂ : Nat),
      create_node s d₁ = (s₁, i₁) → create_node s₁ d₂ = (s₂, i₂) →
      (d₁ = d₂ → i₂ = i₁) ∧ (d₁ ≠ d₂ → i₂ ≠ i₁)) ∧
    (∀ (s s₁ : LTRE) (f₁ f₂ : Term) (dbc : DbClass),
      get_dbclass s f₁ = (s₁, dbc) → termStr f₂ = termStr f₁ →
      get_dbclass s₁ f₂ = (s₁, dbc)) := by
  constructor
  · intro s s₁ s₂ d₁ d₂ i₁ i₂ h₁ h₂
    constructor
    · intro hd
      subst hd
      have hidem := create_node_idem s d₁ s₁ i₁ h₁
      rw [h₂] at hidem
      exact (Prod.ext_iff.mp hidem).2
    · intro hd heq
      obtain ⟨nd₁, hg₁, hdat₁⟩ := create_node_datum s d₁ s₁ i₁ h₁
      obtain ⟨nd₂, hg₂, hdat₂⟩ := create_node_datum s₁ d₂ s₂ i₂ h₂
      have hg₁' := create_node_get_pres s₁ d₂ s₂ i₂ h₂ i₁ nd₁ hg₁
      rw [heq, hg₁'] at hg₂
      injection hg₂ with hnd
      exact hd (by rw [← hdat₁, ← hdat₂, hnd])
  · intro s s₁ f₁ f₂ dbc h hk
    unfold get_dbclass at h
    dsimp only at h
    cases hf : dbLookup s.dbclasses (termStr f₁) with
    | some d =>
      rw [hf] at h
      dsimp only at h
      injection h with hs hd
      rw [← hs, ← hd]
      unfold get_dbclass
      dsimp only
      rw [hk, hf]
    | none =>
      rw [hf] at h
      dsimp only at h
      injection h with hs hd
      rw [← hs, ← hd]
      unfold get_dbclass
      dsimp only
      rw [hk, dbLookup_append_self s.dbclasses (termStr f₁) _ hf]

/-- The atom whose text happens to equal the str rendering of the
one-element tuple containing the atom a. -/
def collideA : Term := Term.atom ("(" ++ quoteStr ++ "a" ++ quoteStr ++ ",)")

/-- The one-element tuple containing the atom a. -/
def collideT : Term := Term.tup [Term.atom "a"]

/-- Engine state after registering the colliding atom. -/
def c5s1 : LTRE := (get_dbclass emptyLTRE collideA).1

/-- The dbclass the colliding atom resolves to. -/
def c5dbcA : DbClass := (get_dbclass emptyLTRE collideA).2

/-- Counterexample refuting the distinctness half of C5 for get_dbclass:
two structurally distinct forms share the string rendering and therefore
resolve to the very same dbclass (hence the same TMS node). -/
theorem C5_counterexample :
    collideA ≠ collideT ∧ termStr collideA = termStr collideT ∧
    (get_dbclass c5s1 collideT).2 = c5dbcA :=
  ⟨by decide, by decide, by decide⟩

/-- First create_node pair: register atom a, then atom a again. -/
def c5n1 : CLTMS × Nat := create_node emptyTMS (Term.atom "a")

/-- Second call with the structurally identical datum. -/
def c5n2 : CLTMS × Nat := create_node c5n1.1 (Term.atom "a")

/-- Second call with a structurally distinct datum. -/
def c5n3 : CLTMS × Nat := create_node c5n1.1 (Term.atom "b")

/-- Witness for C5 at concrete inputs: equal datums reuse the index,
distinct datums get distinct indices, and the equal-rendering form
resolves to the registered dbclass. -/
theorem C5_witness :
    c5n2.2 = c5n1.2 ∧ c5n3.2 ≠ c5n1.2 ∧
    get_dbclass c5s1 collideT = (c5s1, c5dbcA) := by
  refine ⟨?_, ?_, ?_⟩
  · exact (C5_amended.1 emptyTMS c5n1.1 c5n2.1 (Term.atom "a") (Term.atom "a")
      c5n1.2 c5n2.2 rfl rfl).1 rfl
  · exact (C5_amended.1 emptyTMS c5n1.1 c5n3.1 (Term.atom "a") (Term.atom "b")
      c5n1.2 c5n3.2 rfl rfl).2 (by decide)
  · exact C5_amended.2 emptyLTRE c5s1 collideA collideT c5dbcA rfl (by decide)
